import Mathlib

/-!
Verification of the hash map in src/MapA1/map.c.

The C code is shallowly embedded: C strings (zero terminated byte sequences)
become lists of naturals (the bytes before the terminator), `NULL` pointers
become `none`, the 64-bit signed `hash` field is modelled by its unsigned
bit pattern (a natural below 2 ^ 64, with wrap-around arithmetic written
as `% 2 ^ 64`), and every mutating C function becomes a state-passing
function returning the new `map_t` value.  The error constants from map.h
are modelled by an inductive type; from the code only the value of `OK`
(zero, used in the `!= 0` test inside map_optimize) is observable, the
others are only required to be pairwise distinct.

A `NULL` map pointer is outside the state model: all claims concern an
existing map object, and the `self == NULL` branches of the C functions
return without touching any state.
-/

namespace MapA1

/-- Content bytes of a zero terminated C string (terminator excluded). -/
abbrev CStr := List Nat

/-- note: must be 2^n, default is 8 -/
def MIN_EMPTY_SLOTS : Nat := 1 <<< 3

def MAGIC : Nat := 0x1234567890123456

/-- One slot of the backing array (map_entry_t in map.h): a 64-bit hash
(0 = never written), the key pointer (`none` = NULL) and the value pointer. -/
structure map_entry_t where
  hash : Nat
  key : Option CStr
  value : Option CStr
deriving DecidableEq, Repr

/-- A slot as produced by memset 0: hash 0, key NULL, value NULL. -/
def emptyEntry : map_entry_t := { hash := 0, key := none, value := none }

instance : Inhabited map_entry_t := ⟨emptyEntry⟩

/-- The map base structure (map_t in map.h). -/
structure map_t where
  magic : Nat
  capacity : Nat
  size : Nat
  allocated : Nat
  entries : List map_entry_t
deriving DecidableEq, Repr

/-- The integer result codes of map.h.  `OK` is 0 (the code tests
map_set results with `!= 0`); the NOT_INIT constructor models the
not-initialized error code of the header. -/
inductive MapResult where
  | OK
  | KEY_EXISTS
  | REQUIRES_OPTIMIZE
  | SYS_ERROR
  | NULL_POINTER
  | NOT_INIT
  | NO_KEY_EXISTS
  | ERR_NOT_IMPLEMENTED
deriving DecidableEq, Repr

/-- One step of the FNV1 loop body: `hash ^= c & 0xFF; hash *= 1099511628211L;`
with 64-bit wrap-around. -/
def fnv1_step (hash c : Nat) : Nat :=
  ((hash ^^^ (c &&& 0xFF)) * 1099511628211) % 2 ^ 64

/-- The `while (c != 0)` loop of fnv1_hash, walking the bytes of the string. -/
def fnv1_go : Nat → List Nat → Nat
  | hash, [] => hash
  | hash, c :: text => if c = 0 then hash else fnv1_go (fnv1_step hash c) text

/-- fnv1_hash from map.c: the modified FNV1 hash with the high bit forced. -/
def fnv1_hash (text : CStr) : Nat :=
  fnv1_go 0xCBF29CE484222325 text ||| 0x8000000000000000

/-- Loop of map_set: `i` is the current probe index, the last argument is the
remaining loop counter `l`.  Out-of-range reads cannot occur in the C code
(the index is always masked below capacity = array length); `getD` with
`emptyEntry` is the total rendering of `entries + i`.  The three guarded
returns of the C loop body appear in source order; a hash match whose key
does not match falls through to the probe step, exactly as in C, and
`entry.key = some key` renders `entry->key != NULL` together with the
pointer-or-strcmp key comparison. -/
def map_set_go (self : map_t) (key : CStr) (val : Option CStr) (hash : Nat)
    (override : Bool) (mask : Nat) : Nat → Nat → MapResult × map_t
  | _, 0 => (.REQUIRES_OPTIMIZE, self)
  | i, l + 1 =>
    let entry := self.entries.getD i emptyEntry
    if entry.hash = 0 then
      (.OK, { self with
              entries := self.entries.set i { hash := hash, key := some key, value := val },
              allocated := self.allocated + 1,
              size := self.size + 1 })
    else if entry.hash = hash ∧ entry.key = none then
      (.OK, { self with
              entries := self.entries.set i { entry with key := some key, value := val },
              size := self.size + 1 })
    else if entry.hash = hash ∧ entry.key = some key then
      if override = false then (.KEY_EXISTS, self)
      else (.OK, { self with entries := self.entries.set i { entry with value := val } })
    else map_set_go self key val hash override mask ((i + 1) &&& mask) l

/-- map_set from map.c. -/
def map_set (self : map_t) (key : CStr) (val : Option CStr) (hash : Nat)
    (override : Bool) : MapResult × map_t :=
  map_set_go self key val hash override (self.capacity - 1)
    (hash &&& (self.capacity - 1)) self.capacity

/-- The `while (newLength < minNewSize) newLength <<= 1;` loop of map_optimize,
rendered with an explicit fuel (first argument); the fuel passed by
map_optimize is always sufficient because the start value is 8 > 0. -/
def growCap : Nat → Nat → Nat → Nat
  | 0, newLength, _ => newLength
  | fuel + 1, newLength, minNewSize =>
    if newLength < minNewSize then growCap fuel (newLength <<< 1) minNewSize
    else newLength

/-- The re-insertion loop of map_optimize over the old entries array.
On a failing re-insertion the C code returns SYS_ERROR at once (and skips
the free of the old array, which the model does not track). -/
def map_optimize_go : map_t → List map_entry_t → MapResult × map_t
  | self, [] => (.OK, self)
  | self, oldEntry :: rest =>
    match oldEntry.key with
    | none => map_optimize_go self rest
    | some k =>
      let r := map_set self k oldEntry.value oldEntry.hash false
      if r.1 = .OK then map_optimize_go r.2 rest else (.SYS_ERROR, r.2)

/-- map_optimize from map.c.  The C loop reads exactly `oldLength` slots of
the old array; `take oldLength` renders that (under the invariants the
array length equals the capacity, so this is the whole list). -/
def map_optimize (self : map_t) : MapResult × map_t :=
  let oldLength := self.capacity
  let oldEntries := self.entries
  let minNewSize := self.size + MIN_EMPTY_SLOTS
  let newLength := growCap minNewSize MIN_EMPTY_SLOTS minNewSize
  map_optimize_go
    { self with capacity := newLength, allocated := 0, size := 0,
                entries := List.replicate newLength emptyEntry }
    (oldEntries.take oldLength)

/-- Loop of map_indexOf, same probe walk as map_set_go: return the index on
a hash match with a live equal key, stop with -1 at an empty slot, walk on
otherwise. -/
def indexOf_go (entries : List map_entry_t) (key : CStr) (hash : Nat)
    (mask : Nat) : Nat → Nat → Int
  | _, 0 => -1
  | i, l + 1 =>
    let entry := entries.getD i emptyEntry
    if entry.hash = 0 then -1
    else if entry.hash = hash ∧ entry.key = some key then (i : Int)
    else indexOf_go entries key hash mask ((i + 1) &&& mask) l

/-- map_indexOf from map.c. -/
def map_indexOf (self : map_t) (key : CStr) (hash : Nat) : Int :=
  indexOf_go self.entries key hash (self.capacity - 1)
    (hash &&& (self.capacity - 1)) self.capacity

/-- map_init from map.c (the `self == NULL` early return is outside the
state model; the old field values are all overwritten). -/
def map_init (_self : map_t) : map_t :=
  { magic := MAGIC, capacity := MIN_EMPTY_SLOTS, size := 0, allocated := 0,
    entries := List.replicate MIN_EMPTY_SLOTS emptyEntry }

/-- map_put from map.c; the key pointer may be NULL (`none`).  Note that the
result of the internal map_optimize call is discarded, exactly as in C. -/
def map_put (self : map_t) (key : Option CStr) (val : Option CStr) :
    MapResult × map_t :=
  match key with
  | none => (.NULL_POINTER, self)
  | some k =>
    if self.magic ≠ MAGIC then (.NOT_INIT, self)
    else
      let hash := fnv1_hash k
      let i := map_indexOf self k hash
      if 0 ≤ i then (.KEY_EXISTS, self)
      else
        let self := if self.allocated ≥ self.capacity then (map_optimize self).2 else self
        map_set self k val hash false

/-- map_get from map.c.  The C function returns a `const char*`: NULL both
for a missing key and for a stored NULL value, so the result type is the
stored value pointer itself. -/
def map_get (self : map_t) (key : Option CStr) : Option CStr :=
  match key with
  | none => none
  | some k =>
    if self.magic ≠ MAGIC then none
    else
      let hash := fnv1_hash k
      let i := map_indexOf self k hash
      if i < 0 then none else (self.entries.getD i.toNat emptyEntry).value

/-- map_size from map.c. -/
def map_size (self : map_t) : Nat :=
  if self.magic ≠ MAGIC then 0 else self.size

/-- map_remove from map.c.  `self->size--` is an unsigned decrement; the
truncated natural subtraction agrees with it whenever `size > 0`, which
under the data-model invariants always holds on the branch that performs
the decrement (a live slot was just found). -/
def map_remove (self : map_t) (key : Option CStr) : MapResult × map_t :=
  match key with
  | none => (.NULL_POINTER, self)
  | some k =>
    if self.magic ≠ MAGIC then (.NOT_INIT, self)
    else
      let hash := fnv1_hash k
      let i := map_indexOf self k hash
      if 0 ≤ i then
        let entry := self.entries.getD i.toNat emptyEntry
        (.OK, { self with
                entries := self.entries.set i.toNat { entry with key := none },
                size := self.size - 1 })
      else (.NO_KEY_EXISTS, self)

/-- map_serialize from map.c (the FILE* stream argument is irrelevant). -/
def map_serialize (_self : map_t) : MapResult := .ERR_NOT_IMPLEMENTED

/-- map_deserialize from map.c. -/
def map_deserialize (_self : map_t) : MapResult := .ERR_NOT_IMPLEMENTED

/-- map_destroy from map.c: frees the entries array (rendered as the empty
list for the NULL pointer stored into `self->entries`) and clears the magic
tag; a map whose magic is already invalid is left untouched. -/
def map_destroy (self : map_t) : map_t :=
  if self.magic ≠ MAGIC then self
  else { self with entries := [], magic := 0 }

/-! Public operations as data, to talk about arbitrary operation sequences. -/

/-- A public mutating or reading call on the map. -/
inductive MapOp where
  | putOp (key : Option CStr) (val : Option CStr)
  | removeOp (key : Option CStr)
  | getOp (key : Option CStr)
  | sizeOp
deriving DecidableEq, Repr

/-- The state after one public call.  map_get and map_size contain no store
to the map structure or the entries array in the C source, so they leave
the state unchanged. -/
def applyOp (m : map_t) : MapOp → map_t
  | .putOp key val => (map_put m key val).2
  | .removeOp key => (map_remove m key).2
  | .getOp _ => m
  | .sizeOp => m

/-- The state after a sequence of public calls. -/
def applyOps (m : map_t) (ops : List MapOp) : map_t := ops.foldl applyOp m

/-- The key argument of an operation, if any. -/
def opKey : MapOp → Option CStr
  | .putOp key _ => key
  | .removeOp key => key
  | .getOp key => key
  | .sizeOp => none

/-! The abstract view of a map state and the data-model invariants. -/

/-- Number of live slots (key pointer non NULL). -/
def countLive (l : List map_entry_t) : Nat := l.countP fun e => e.key.isSome

/-- Number of slots ever written (hash non zero): live slots plus tombstones. -/
def countUsed (l : List map_entry_t) : Nat := l.countP fun e => decide (e.hash ≠ 0)

/-- The binding stored for key `k`: `some v` when a live slot with key `k`
and value pointer `v` exists, `none` otherwise. -/
def model (m : map_t) (k : CStr) : Option (Option CStr) :=
  (m.entries.find? fun e => decide (e.key = some k)).map fun e => e.value

/-- Start slot of the probe walk for a stored hash. -/
def probeStart (hash cap : Nat) : Nat := hash % cap

/-- Number of forward steps (with wrap-around) from slot `s` to slot `j`. -/
def cycDist (cap s j : Nat) : Nat := (j + cap - s) % cap

/-- Slot reached after `t` forward steps from slot `s`. -/
def probeAt (cap s t : Nat) : Nat := (s + t) % cap

/-- The data-model invariants of a properly initialized map: a power-of-two
capacity of at least 8, counters that count what they claim to count,
hashes that belong to the stored keys, at most one live slot per key, and
the linear-probing reachability property: the walk towards any written slot
never crosses an empty slot. -/
structure Inv (m : map_t) : Prop where
  magic_ok : m.magic = MAGIC
  cap_pow : ∃ c ≤ m.capacity, m.capacity = 2 ^ c
  cap_min : 8 ≤ m.capacity
  len_ok : m.entries.length = m.capacity
  size_ok : m.size = countLive m.entries
  alloc_ok : m.allocated = countUsed m.entries
  hash_zero : ∀ e ∈ m.entries, e.hash = 0 → e.key = none
  hash_live : ∀ e ∈ m.entries, e.key.isSome → e.hash = fnv1_hash (e.key.getD [])
  uniq : ∀ i < m.entries.length, ∀ j < m.entries.length,
    (m.entries.getD i emptyEntry).key ≠ none →
    (m.entries.getD i emptyEntry).key = (m.entries.getD j emptyEntry).key → i = j
  probe : ∀ j < m.entries.length, (m.entries.getD j emptyEntry).hash ≠ 0 →
    ∀ t < cycDist m.capacity
        (probeStart (m.entries.getD j emptyEntry).hash m.capacity) j,
      (m.entries.getD
        (probeAt m.capacity
          (probeStart (m.entries.getD j emptyEntry).hash m.capacity) t)
        emptyEntry).hash ≠ 0

/-- 64-bit two's-complement reading of a bit pattern. -/
def toSigned (n : Nat) : Int := if n < 2 ^ 63 then (n : Int) else (n : Int) - 2 ^ 64

/-- Spec-side hash: fold XOR-then-multiply over the bytes, no early stop. -/
def fnv1_fold (text : CStr) : Nat := text.foldl fnv1_step 0xCBF29CE484222325

/-- A byte list that renders a zero terminated string: no interior zero. -/
def NulFree (s : CStr) : Prop := ∀ c ∈ s, c ≠ 0

instance decNulFree (s : CStr) : Decidable (NulFree s) :=
  List.decidableBAll (fun c => c ≠ 0) s

/-- `p` is the least power of two that is at least `t`. -/
def IsLeastPow2Ge (p t : Nat) : Prop :=
  (∃ c, p = 2 ^ c) ∧ t ≤ p ∧ ∀ q, (∃ c, q = 2 ^ c) → t ≤ q → p ≤ q

/-! Basic facts about the hash function. -/

theorem fnv1_hash_ge (text : CStr) : 2 ^ 63 ≤ fnv1_hash text := by
  have hbit : (fnv1_hash text).testBit 63 = true := by
    unfold fnv1_hash
    rw [Nat.testBit_or]
    have h : (0x8000000000000000 : Nat) = 2 ^ 63 := by norm_num
    rw [h, Nat.testBit_two_pow_self]
    simp
  exact Nat.testBit_implies_ge hbit

theorem fnv1_hash_ne_zero (text : CStr) : fnv1_hash text ≠ 0 := by
  have h := fnv1_hash_ge text
  intro h0
  rw [h0] at h
  exact absurd h (by norm_num)

theorem fnv1_go_lt (text : CStr) : ∀ hash, hash < 2 ^ 64 → fnv1_go hash text < 2 ^ 64 := by
  induction text with
  | nil => intro hash h; exact h
  | cons c rest ih =>
    intro hash h
    rw [fnv1_go]
    by_cases hc : c = 0
    · rw [if_pos hc]; exact h
    · rw [if_neg hc]
      exact ih _ (Nat.mod_lt _ (by norm_num))

theorem fnv1_hash_lt (text : CStr) : fnv1_hash text < 2 ^ 64 :=
  Nat.or_lt_two_pow (fnv1_go_lt text _ (by norm_num)) (by norm_num)

theorem fnv1_go_eq_foldl (text : CStr) (h : NulFree text) :
    ∀ hash, fnv1_go hash text = text.foldl fnv1_step hash := by
  induction text with
  | nil => intro hash; rfl
  | cons c rest ih =>
    intro hash
    rw [fnv1_go, if_neg (h c (List.mem_cons_self c rest)), List.foldl_cons]
    exact ih (fun d hd => h d (List.mem_cons_of_mem c hd)) _

/-! Arithmetic of the cyclic probe walk. -/

theorem mod_char (s t n : Nat) (hs : s < n) (ht : t < n) :
    (s + t) % n = if s + t < n then s + t else s + t - n := by
  split
  · exact Nat.mod_eq_of_lt (by assumption)
  · rw [Nat.mod_eq_sub_mod (by omega), Nat.mod_eq_of_lt (by omega)]

theorem cycDist_char (n s j : Nat) (hs : s < n) (hj : j < n) :
    cycDist n s j = if s ≤ j then j - s else j + n - s := by
  unfold cycDist
  split
  · rw [Nat.mod_eq_sub_mod (by omega), Nat.mod_eq_of_lt (by omega)]
    omega
  · rw [Nat.mod_eq_of_lt (by omega)]

theorem cycDist_lt (n s j : Nat) (hn : 0 < n) : cycDist n s j < n := Nat.mod_lt _ hn

theorem probeAt_lt (n s t : Nat) (hn : 0 < n) : probeAt n s t < n := Nat.mod_lt _ hn

theorem probeAt_zero (n s : Nat) (hs : s < n) : probeAt n s 0 = s := by
  unfold probeAt
  rw [Nat.add_zero]
  exact Nat.mod_eq_of_lt hs

theorem probeAt_step (n s t : Nat) : (probeAt n s t + 1) % n = probeAt n s (t + 1) := by
  unfold probeAt
  rw [Nat.mod_add_mod, Nat.add_assoc]

theorem probeAt_dist (n s j : Nat) (hs : s < n) (hj : j < n) :
    probeAt n s (cycDist n s j) = j := by
  unfold probeAt
  rw [cycDist_char n s j hs hj]
  split
  · rw [Nat.mod_eq_of_lt (by omega)]; omega
  · have h1 : s + (j + n - s) = j + n := by omega
    rw [h1, Nat.add_mod_right, Nat.mod_eq_of_lt hj]

theorem probeAt_inj (n s t1 t2 : Nat) (hs : s < n) (h1 : t1 < n) (h2 : t2 < n)
    (he : probeAt n s t1 = probeAt n s t2) : t1 = t2 := by
  unfold probeAt at he
  rw [mod_char s t1 n hs h1, mod_char s t2 n hs h2] at he
  split at he <;> split at he <;> omega

theorem cycDist_probeAt (n s t : Nat) (hs : s < n) (ht : t < n) :
    cycDist n s (probeAt n s t) = t := by
  have hp : probeAt n s t < n := probeAt_lt n s t (by omega)
  rw [cycDist_char n s _ hs hp]
  unfold probeAt
  rw [mod_char s t n hs ht]
  split <;> split <;> omega

/-! List access and update helpers. -/

theorem getD_lt {α : Type} (l : List α) (d : α) {i : Nat} (h : i < l.length) :
    l.getD i d = l[i] := by
  simp [List.getD_eq_getElem?_getD, List.getElem?_eq_getElem h]

theorem getD_mem {α : Type} (l : List α) (d : α) {i : Nat} (h : i < l.length) :
    l.getD i d ∈ l := by
  rw [getD_lt l d h]
  exact List.getElem_mem h

theorem getD_set_self {α : Type} (l : List α) (d a : α) {j : Nat} (h : j < l.length) :
    (l.set j a).getD j d = a := by
  simp [List.getD_eq_getElem?_getD, List.getElem?_set_self h]

theorem getD_set_ne {α : Type} (l : List α) (d a : α) {i j : Nat} (h : i ≠ j) :
    (l.set i a).getD j d = l.getD j d := by
  simp [List.getD_eq_getElem?_getD, List.getElem?_set_ne h]

theorem countP_set_add {α : Type} (p : α → Bool) (l : List α) (a d : α) :
    ∀ j, j < l.length →
      (l.set j a).countP p + (if p (l.getD j d) then 1 else 0) =
        l.countP p + (if p a then 1 else 0) := by
  induction l with
  | nil => intro j hj; simp at hj
  | cons x xs ih =>
    intro j hj
    cases j with
    | zero =>
      simp only [List.set_cons_zero, List.countP_cons, List.getD_cons_zero]
      omega
    | succ j =>
      simp only [List.set_cons_succ, List.countP_cons, List.getD_cons_succ]
      have h := ih j (by simpa using hj)
      omega

theorem find?_set_pos {α : Type} (p : α → Bool) (l : List α) (a : α) :
    ∀ j, j < l.length → (∀ e ∈ l, ¬ p e) → p a → (l.set j a).find? p = some a := by
  induction l with
  | nil => intro j hj; simp at hj
  | cons x xs ih =>
    intro j hj hl ha
    cases j with
    | zero => simp [List.find?_cons_of_pos _ ha]
    | succ j =>
      rw [List.set_cons_succ,
        List.find?_cons_of_neg _ (hl x (List.mem_cons_self x xs))]
      exact ih j (by simpa using hj) (fun e he => hl e (List.mem_cons_of_mem x he)) ha

theorem find?_set_neg {α : Type} (p : α → Bool) (a d : α) :
    ∀ (l : List α) (j : Nat), ¬ p (l.getD j d) → ¬ p a →
      (l.set j a).find? p = l.find? p := by
  intro l
  induction l with
  | nil => intro j _ _; rfl
  | cons x xs ih =>
    intro j hold ha
    cases j with
    | zero =>
      rw [List.getD_cons_zero] at hold
      rw [List.set_cons_zero, List.find?_cons_of_neg _ ha, List.find?_cons_of_neg _ hold]
    | succ j =>
      rw [List.getD_cons_succ] at hold
      rw [List.set_cons_succ]
      by_cases hx : p x
      · rw [List.find?_cons_of_pos _ hx, List.find?_cons_of_pos _ hx]
      · rw [List.find?_cons_of_neg _ hx, List.find?_cons_of_neg _ hx]
        exact ih j hold ha

theorem getD_of_le {α : Type} (l : List α) (d : α) {i : Nat} (h : l.length ≤ i) :
    l.getD i d = d := by
  simp [List.getD_eq_getElem?_getD, List.getElem?_eq_none h]

theorem exists_empty_slot (l : List map_entry_t) (h : countUsed l < l.length) :
    ∃ p, p < l.length ∧ (l.getD p emptyEntry).hash = 0 := by
  by_contra hc
  push_neg at hc
  have hall : ∀ e ∈ l, (fun e => decide (e.hash ≠ 0)) e = true := by
    intro e he
    obtain ⟨n, hn, hne⟩ := List.getElem_of_mem he
    have := hc n hn
    rw [getD_lt l emptyEntry hn, hne] at this
    simpa using this
  have := List.countP_eq_length.mpr hall
  unfold countUsed at h
  omega

/-! Correctness of the probe lookup (map_indexOf). -/

theorem indexOf_go_zero (entries : List map_entry_t) (key : CStr) (hash mask i : Nat) :
    indexOf_go entries key hash mask i 0 = -1 := rfl

theorem indexOf_go_succ (entries : List map_entry_t) (key : CStr) (hash mask i l : Nat) :
    indexOf_go entries key hash mask i (l + 1) =
      (if (entries.getD i emptyEntry).hash = 0 then -1
       else if (entries.getD i emptyEntry).hash = hash ∧
           (entries.getD i emptyEntry).key = some key then (i : Int)
       else indexOf_go entries key hash mask ((i + 1) &&& mask) l) := rfl

theorem indexOf_go_not_found (entries : List map_entry_t) (key : CStr) (hash mask : Nat)
    (hk : ∀ e ∈ entries, e.key ≠ some key) :
    ∀ l i, indexOf_go entries key hash mask i l = -1 := by
  intro l
  induction l with
  | zero => intro i; rfl
  | succ l ih =>
    intro i
    rw [indexOf_go_succ]
    by_cases h0 : (entries.getD i emptyEntry).hash = 0
    · rw [if_pos h0]
    · rw [if_neg h0]
      have hcond : ¬((entries.getD i emptyEntry).hash = hash ∧
          (entries.getD i emptyEntry).key = some key) := by
        rintro ⟨-, hkey⟩
        have hi : i < entries.length := by
          by_contra hge
          rw [getD_of_le entries emptyEntry (by omega)] at h0
          exact h0 rfl
        exact hk _ (getD_mem entries emptyEntry hi) hkey
      rw [if_neg hcond]
      exact ih _

theorem indexOf_go_found (entries : List map_entry_t) (key : CStr) (hash mask : Nat) :
    ∀ l i, 0 ≤ indexOf_go entries key hash mask i l →
      (indexOf_go entries key hash mask i l).toNat < entries.length ∧
      (entries.getD (indexOf_go entries key hash mask i l).toNat emptyEntry).hash = hash ∧
      (entries.getD (indexOf_go entries key hash mask i l).toNat emptyEntry).key = some key := by
  intro l
  induction l with
  | zero => intro i h; exact absurd h (by rw [indexOf_go_zero]; omega)
  | succ l ih =>
    intro i h
    rw [indexOf_go_succ] at h ⊢
    by_cases h0 : (entries.getD i emptyEntry).hash = 0
    · rw [if_pos h0] at h; exact absurd h (by omega)
    · rw [if_neg h0] at h ⊢
      by_cases hcond : (entries.getD i emptyEntry).hash = hash ∧
          (entries.getD i emptyEntry).key = some key
      · rw [if_pos hcond] at h ⊢
        have hi : i < entries.length := by
          by_contra hge
          rw [getD_of_le entries emptyEntry (by omega)] at h0
          exact h0 rfl
        simp only [Int.toNat_natCast]
        exact ⟨hi, hcond.1, hcond.2⟩
      · rw [if_neg hcond] at h ⊢
        exact ih _ h

theorem indexOf_go_reaches (entries : List map_entry_t) (key : CStr) (hash : Nat)
    (c : Nat) (_hlen : entries.length = 2 ^ c) (hne : hash ≠ 0)
    (j : Nat) (hj : j < 2 ^ c)
    (hhj : (entries.getD j emptyEntry).hash = hash)
    (hkj : (entries.getD j emptyEntry).key = some key)
    (hpath : ∀ u, u < cycDist (2 ^ c) (hash % 2 ^ c) j →
      (entries.getD (probeAt (2 ^ c) (hash % 2 ^ c) u) emptyEntry).hash ≠ 0 ∧
      (entries.getD (probeAt (2 ^ c) (hash % 2 ^ c) u) emptyEntry).key ≠ some key) :
    ∀ n t, t ≤ cycDist (2 ^ c) (hash % 2 ^ c) j →
      n = cycDist (2 ^ c) (hash % 2 ^ c) j - t →
      indexOf_go entries key hash (2 ^ c - 1)
        (probeAt (2 ^ c) (hash % 2 ^ c) t) (2 ^ c - t) = (j : Int) := by
  have hpow : 0 < 2 ^ c := Nat.pos_pow_of_pos c (by norm_num)
  have hs : hash % 2 ^ c < 2 ^ c := Nat.mod_lt _ hpow
  have hd : cycDist (2 ^ c) (hash % 2 ^ c) j < 2 ^ c := cycDist_lt _ _ _ hpow
  intro n
  induction n with
  | zero =>
    intro t ht hn
    have htd : t = cycDist (2 ^ c) (hash % 2 ^ c) j := by omega
    subst htd
    rw [probeAt_dist _ _ _ hs hj]
    obtain ⟨f, hf⟩ : ∃ f, 2 ^ c - cycDist (2 ^ c) (hash % 2 ^ c) j = f + 1 :=
      ⟨2 ^ c - cycDist (2 ^ c) (hash % 2 ^ c) j - 1, by omega⟩
    rw [hf, indexOf_go_succ, if_neg (by rw [hhj]; exact hne), if_pos ⟨hhj, hkj⟩]
  | succ n ih =>
    intro t ht hn
    have htd : t < cycDist (2 ^ c) (hash % 2 ^ c) j := by omega
    obtain ⟨hh0, hknot⟩ := hpath t htd
    obtain ⟨f, hf⟩ : ∃ f, 2 ^ c - t = f + 1 := ⟨2 ^ c - t - 1, by omega⟩
    rw [hf, indexOf_go_succ, if_neg hh0,
      if_neg (by rintro ⟨-, hk2⟩; exact hknot hk2)]
    have hmask : (probeAt (2 ^ c) (hash % 2 ^ c) t + 1) &&& (2 ^ c - 1) =
        probeAt (2 ^ c) (hash % 2 ^ c) (t + 1) := by
      rw [Nat.and_pow_two_sub_one_eq_mod, probeAt_step]
    have hfuel : f = 2 ^ c - (t + 1) := by omega
    rw [hmask, hfuel]
    exact ih (t + 1) (by omega) (by omega)

theorem map_indexOf_none (m : map_t) (k : CStr) (hash : Nat)
    (hk : ∀ e ∈ m.entries, e.key ≠ some k) : map_indexOf m k hash = -1 :=
  indexOf_go_not_found m.entries k hash _ hk _ _

theorem map_indexOf_nonneg (m : map_t) (k : CStr) (hash : Nat)
    (h : 0 ≤ map_indexOf m k hash) :
    (map_indexOf m k hash).toNat < m.entries.length ∧
    (m.entries.getD (map_indexOf m k hash).toNat emptyEntry).hash = hash ∧
    (m.entries.getD (map_indexOf m k hash).toNat emptyEntry).key = some k :=
  indexOf_go_found m.entries k hash _ _ _ h

theorem map_indexOf_found (m : map_t) (hInv : Inv m) (k : CStr) (j : Nat)
    (hj : j < m.entries.length)
    (hkj : (m.entries.getD j emptyEntry).key = some k) :
    map_indexOf m k (fnv1_hash k) = (j : Int) := by
  obtain ⟨c, -, hc⟩ := hInv.cap_pow
  have hlen : m.entries.length = 2 ^ c := by rw [hInv.len_ok, hc]
  have hpow : 0 < 2 ^ c := Nat.pos_pow_of_pos c (by norm_num)
  have hne := fnv1_hash_ne_zero k
  have hj2 : j < 2 ^ c := hlen ▸ hj
  have hmem := getD_mem m.entries emptyEntry hj
  have hsome : (m.entries.getD j emptyEntry).key.isSome := by rw [hkj]; rfl
  have hhj : (m.entries.getD j emptyEntry).hash = fnv1_hash k := by
    have h1 := hInv.hash_live _ hmem hsome
    rw [hkj] at h1
    simpa using h1
  have hpath : ∀ u, u < cycDist (2 ^ c) (fnv1_hash k % 2 ^ c) j →
      (m.entries.getD (probeAt (2 ^ c) (fnv1_hash k % 2 ^ c) u) emptyEntry).hash ≠ 0 ∧
      (m.entries.getD (probeAt (2 ^ c) (fnv1_hash k % 2 ^ c) u) emptyEntry).key ≠ some k := by
    intro u hu
    constructor
    · have hch : (m.entries.getD j emptyEntry).hash ≠ 0 := by rw [hhj]; exact hne
      have hp := hInv.probe j hj hch
      rw [hhj, hc] at hp
      unfold probeStart at hp
      exact hp u hu
    · intro hkey
      have hdlt : cycDist (2 ^ c) (fnv1_hash k % 2 ^ c) j < 2 ^ c :=
        cycDist_lt _ _ _ hpow
      have hplt : probeAt (2 ^ c) (fnv1_hash k % 2 ^ c) u < 2 ^ c :=
        probeAt_lt _ _ _ hpow
      have hpj := hInv.uniq (probeAt (2 ^ c) (fnv1_hash k % 2 ^ c) u) (by omega)
        j hj (by rw [hkey]; simp) (by rw [hkey, hkj])
      have hdj : probeAt (2 ^ c) (fnv1_hash k % 2 ^ c)
          (cycDist (2 ^ c) (fnv1_hash k % 2 ^ c) j) = j :=
        probeAt_dist _ _ _ (Nat.mod_lt _ hpow) hj2
      have hud : u = cycDist (2 ^ c) (fnv1_hash k % 2 ^ c) j := by
        refine probeAt_inj (2 ^ c) (fnv1_hash k % 2 ^ c) u _ (Nat.mod_lt _ hpow)
          (by omega) (cycDist_lt _ _ _ hpow) ?_
        rw [hdj, hpj]
      omega
  have hres := indexOf_go_reaches m.entries k (fnv1_hash k) c hlen hne j hj2 hhj hkj
    hpath (cycDist (2 ^ c) (fnv1_hash k % 2 ^ c) j) 0 (Nat.zero_le _) (by omega)
  rw [probeAt_zero _ _ (Nat.mod_lt _ hpow), Nat.sub_zero] at hres
  show indexOf_go m.entries k (fnv1_hash k) (m.capacity - 1)
    (fnv1_hash k &&& (m.capacity - 1)) m.capacity = (j : Int)
  rw [hc, Nat.and_pow_two_sub_one_eq_mod]
  exact hres

/-! The abstract contents function versus map_get. -/

theorem model_none_iff (m : map_t) (k : CStr) :
    model m k = none ↔ ∀ e ∈ m.entries, e.key ≠ some k := by
  unfold model
  simp [List.find?_eq_none]

theorem model_some_index (m : map_t) (k : CStr) (v : Option CStr)
    (h : model m k = some v) :
    ∃ j, j < m.entries.length ∧ (m.entries.getD j emptyEntry).key = some k ∧
      (m.entries.getD j emptyEntry).value = v := by
  unfold model at h
  obtain ⟨e, hfind, hval⟩ := Option.map_eq_some'.mp h
  have hp := List.find?_some hfind
  have hmem := List.mem_of_find?_eq_some hfind
  obtain ⟨n, hn, hne⟩ := List.getElem_of_mem hmem
  refine ⟨n, hn, ?_, ?_⟩
  · rw [getD_lt _ _ hn, hne]
    exact of_decide_eq_true hp
  · rw [getD_lt _ _ hn, hne]
    exact hval

theorem map_get_of_model_none (m : map_t) (k : CStr) (h : model m k = none) :
    map_get m (some k) = none := by
  show (if m.magic ≠ MAGIC then none
    else if map_indexOf m k (fnv1_hash k) < 0 then none
    else (m.entries.getD (map_indexOf m k (fnv1_hash k)).toNat emptyEntry).value) = none
  by_cases hm : m.magic ≠ MAGIC
  · rw [if_pos hm]
  · rw [if_neg hm]
    have hidx := map_indexOf_none m k (fnv1_hash k) ((model_none_iff m k).mp h)
    rw [hidx, if_pos (by norm_num)]

theorem map_get_of_model_some (m : map_t) (hInv : Inv m) (k : CStr) (v : Option CStr)
    (h : model m k = some v) : map_get m (some k) = v := by
  obtain ⟨j, hj, hkj, hval⟩ := model_some_index m k v h
  have hidx := map_indexOf_found m hInv k j hj hkj
  show (if m.magic ≠ MAGIC then none
    else if map_indexOf m k (fnv1_hash k) < 0 then none
    else (m.entries.getD (map_indexOf m k (fnv1_hash k)).toNat emptyEntry).value) = v
  rw [if_neg (by rw [hInv.magic_ok]; exact fun hne => hne rfl), hidx,
    if_neg (by omega), Int.toNat_natCast]
  exact hval

/-! Correctness of the probe placement (map_set) for a fresh key. -/

theorem map_set_go_zero (self : map_t) (key : CStr) (val : Option CStr)
    (hash : Nat) (override : Bool) (mask i : Nat) :
    map_set_go self key val hash override mask i 0 = (.REQUIRES_OPTIMIZE, self) := rfl

theorem map_set_go_succ (self : map_t) (key : CStr) (val : Option CStr)
    (hash : Nat) (override : Bool) (mask i l : Nat) :
    map_set_go self key val hash override mask i (l + 1) =
      (if (self.entries.getD i emptyEntry).hash = 0 then
        (.OK, { self with
                entries := self.entries.set i
                  { hash := hash, key := some key, value := val },
                allocated := self.allocated + 1,
                size := self.size + 1 })
       else if (self.entries.getD i emptyEntry).hash = hash ∧
           (self.entries.getD i emptyEntry).key = none then
        (.OK, { self with
                entries := self.entries.set i
                  { self.entries.getD i emptyEntry with key := some key, value := val },
                size := self.size + 1 })
       else if (self.entries.getD i emptyEntry).hash = hash ∧
           (self.entries.getD i emptyEntry).key = some key then
        (if override = false then (.KEY_EXISTS, self)
         else (.OK, { self with
                entries := self.entries.set i
                  { self.entries.getD i emptyEntry with value := val } }))
       else map_set_go self key val hash override mask ((i + 1) &&& mask) l) := rfl

/-- The state produced by a successful fresh insertion at slot `j`. -/
def insertState (m : map_t) (k : CStr) (v : Option CStr) (j : Nat) : map_t :=
  { m with
    entries := m.entries.set j { hash := fnv1_hash k, key := some k, value := v },
    size := m.size + 1,
    allocated := if (m.entries.getD j emptyEntry).hash = 0
      then m.allocated + 1 else m.allocated }

theorem map_set_go_inserts (self : map_t) (key : CStr) (val : Option CStr) (hash : Nat)
    (c : Nat) (hne : hash ≠ 0)
    (hNoK : ∀ e ∈ self.entries, e.key ≠ some key)
    (t0 : Nat) (ht0 : t0 < 2 ^ c)
    (hstop : (self.entries.getD (probeAt (2 ^ c) (hash % 2 ^ c) t0) emptyEntry).hash = 0 ∨
      ((self.entries.getD (probeAt (2 ^ c) (hash % 2 ^ c) t0) emptyEntry).hash = hash ∧
       (self.entries.getD (probeAt (2 ^ c) (hash % 2 ^ c) t0) emptyEntry).key = none))
    (hpath : ∀ u, u < t0 →
      ¬((self.entries.getD (probeAt (2 ^ c) (hash % 2 ^ c) u) emptyEntry).hash = 0 ∨
        ((self.entries.getD (probeAt (2 ^ c) (hash % 2 ^ c) u) emptyEntry).hash = hash ∧
         (self.entries.getD (probeAt (2 ^ c) (hash % 2 ^ c) u) emptyEntry).key = none))) :
    ∀ n t, t ≤ t0 → n = t0 - t →
      map_set_go self key val hash false (2 ^ c - 1)
          (probeAt (2 ^ c) (hash % 2 ^ c) t) (2 ^ c - t) =
        (.OK, { self with
                entries := self.entries.set (probeAt (2 ^ c) (hash % 2 ^ c) t0)
                  { hash := hash, key := some key, value := val },
                size := self.size + 1,
                allocated :=
                  if (self.entries.getD (probeAt (2 ^ c) (hash % 2 ^ c) t0)
                      emptyEntry).hash = 0
                  then self.allocated + 1 else self.allocated }) := by
  intro n
  induction n with
  | zero =>
    intro t ht hn
    have htd : t = t0 := by omega
    subst htd
    obtain ⟨f, hf⟩ : ∃ f, 2 ^ c - t = f + 1 := ⟨2 ^ c - t - 1, by omega⟩
    rw [hf, map_set_go_succ]
    rcases hstop with h0 | ⟨hh, hk⟩
    · rw [if_pos h0, if_pos h0]
    · have h0 : ¬(self.entries.getD (probeAt (2 ^ c) (hash % 2 ^ c) t)
          emptyEntry).hash = 0 := by rw [hh]; exact hne
      rw [if_neg h0, if_pos ⟨hh, hk⟩, if_neg h0]
      simp only [hh]
  | succ n ih =>
    intro t ht hn
    have htd : t < t0 := by omega
    have hns := hpath t htd
    push_neg at hns
    obtain ⟨h0, hbc⟩ := hns
    obtain ⟨f, hf⟩ : ∃ f, 2 ^ c - t = f + 1 := ⟨2 ^ c - t - 1, by omega⟩
    have hnomatch : ¬((self.entries.getD (probeAt (2 ^ c) (hash % 2 ^ c) t)
        emptyEntry).hash = hash ∧
        (self.entries.getD (probeAt (2 ^ c) (hash % 2 ^ c) t)
        emptyEntry).key = some key) := by
      rintro ⟨-, hk2⟩
      have hi : probeAt (2 ^ c) (hash % 2 ^ c) t < self.entries.length := by
        by_contra hge
        rw [getD_of_le self.entries emptyEntry (by omega)] at h0
        exact h0 rfl
      exact hNoK _ (getD_mem self.entries emptyEntry hi) hk2
    rw [hf, map_set_go_succ, if_neg h0,
      if_neg (by rintro ⟨hb, hcc⟩; exact hbc hb hcc), if_neg hnomatch]
    have hmask : (probeAt (2 ^ c) (hash % 2 ^ c) t + 1) &&& (2 ^ c - 1) =
        probeAt (2 ^ c) (hash % 2 ^ c) (t + 1) := by
      rw [Nat.and_pow_two_sub_one_eq_mod, probeAt_step]
    have hfuel : f = 2 ^ c - (t + 1) := by omega
    rw [hmask, hfuel]
    exact ih (t + 1) (by omega) (by omega)

theorem insertState_getD (m : map_t) (k : CStr) (v : Option CStr) (j : Nat)
    (hj : j < m.entries.length) (i : Nat) :
    (insertState m k v j).entries.getD i emptyEntry =
      if i = j then { hash := fnv1_hash k, key := some k, value := v }
      else m.entries.getD i emptyEntry := by
  show (m.entries.set j _).getD i emptyEntry = _
  by_cases hij : i = j
  · subst hij
    rw [if_pos rfl]
    exact getD_set_self _ _ _ hj
  · rw [if_neg hij]
    exact getD_set_ne _ _ _ fun h => hij h.symm

theorem countLive_set_fresh (l : List map_entry_t) (j : Nat) (hj : j < l.length)
    (a : map_entry_t) (hold : (l.getD j emptyEntry).key = none)
    (hnew : a.key.isSome) : countLive (l.set j a) = countLive l + 1 := by
  have hcount := countP_set_add (fun e => e.key.isSome) l a emptyEntry j hj
  have hcount2 : countLive (l.set j a) +
      (if (l.getD j emptyEntry).key.isSome = true then 1 else 0) =
      countLive l + (if a.key.isSome = true then 1 else 0) := hcount
  rw [hold, hnew] at hcount2
  simp only [Option.isSome_none, Bool.false_eq_true, if_false, if_true] at hcount2
  omega

theorem countUsed_set_zero (l : List map_entry_t) (j : Nat) (hj : j < l.length)
    (a : map_entry_t) (hold : (l.getD j emptyEntry).hash = 0)
    (hnew : a.hash ≠ 0) : countUsed (l.set j a) = countUsed l + 1 := by
  have hcount := countP_set_add (fun e => decide (e.hash ≠ 0)) l a emptyEntry j hj
  have hcount2 : countUsed (l.set j a) +
      (if decide ((l.getD j emptyEntry).hash ≠ 0) = true then 1 else 0) =
      countUsed l + (if decide (a.hash ≠ 0) = true then 1 else 0) := hcount
  rw [hold] at hcount2
  simp only [ne_eq, hnew, not_false_eq_true, not_true_eq_false, decide_True,
    decide_False, Bool.false_eq_true, if_false, if_true] at hcount2
  omega

theorem countUsed_set_nonzero (l : List map_entry_t) (j : Nat) (hj : j < l.length)
    (a : map_entry_t) (hold : (l.getD j emptyEntry).hash ≠ 0)
    (hnew : a.hash ≠ 0) : countUsed (l.set j a) = countUsed l := by
  have hcount := countP_set_add (fun e => decide (e.hash ≠ 0)) l a emptyEntry j hj
  have hcount2 : countUsed (l.set j a) +
      (if decide ((l.getD j emptyEntry).hash ≠ 0) = true then 1 else 0) =
      countUsed l + (if decide (a.hash ≠ 0) = true then 1 else 0) := hcount
  simp only [ne_eq, hold, hnew, not_false_eq_true, decide_True, if_true] at hcount2
  omega

theorem Inv_insert (m : map_t) (hInv : Inv m) (k : CStr) (v : Option CStr) (j : Nat)
    (hj : j < m.entries.length) (hjkey : (m.entries.getD j emptyEntry).key = none)
    (hNoK : ∀ e ∈ m.entries, e.key ≠ some k)
    (hdist : ∀ u, u < cycDist m.capacity (fnv1_hash k % m.capacity) j →
      (m.entries.getD (probeAt m.capacity (fnv1_hash k % m.capacity) u)
        emptyEntry).hash ≠ 0) :
    Inv (insertState m k v j) := by
  have hlen := hInv.len_ok
  have hget := insertState_getD m k v j hj
  have hlen2 : (insertState m k v j).entries.length = m.entries.length :=
    List.length_set _ _ _
  have hcap : (insertState m k v j).capacity = m.capacity := rfl
  have hc1 := countLive_set_fresh m.entries j hj
    { hash := fnv1_hash k, key := some k, value := v } hjkey rfl
  refine ⟨hInv.magic_ok, hInv.cap_pow, hInv.cap_min, ?_, ?_, ?_, ?_, ?_, ?_, ?_⟩
  · rw [hlen2]; exact hInv.len_ok
  · show m.size + 1 = countLive (m.entries.set j _)
    rw [hc1, hInv.size_ok]
  · show (if (m.entries.getD j emptyEntry).hash = 0
        then m.allocated + 1 else m.allocated) = countUsed (m.entries.set j _)
    by_cases h0 : (m.entries.getD j emptyEntry).hash = 0
    · rw [if_pos h0, countUsed_set_zero m.entries j hj
        { hash := fnv1_hash k, key := some k, value := v } h0 (fnv1_hash_ne_zero k),
        hInv.alloc_ok]
    · rw [if_neg h0, countUsed_set_nonzero m.entries j hj
        { hash := fnv1_hash k, key := some k, value := v } h0 (fnv1_hash_ne_zero k),
        hInv.alloc_ok]
  · intro e he h0
    rcases List.mem_or_eq_of_mem_set he with hmem | hea
    · exact hInv.hash_zero e hmem h0
    · rw [hea] at h0
      exact absurd h0 (fnv1_hash_ne_zero k)
  · intro e he hs
    rcases List.mem_or_eq_of_mem_set he with hmem | hea
    · exact hInv.hash_live e hmem hs
    · rw [hea]
      rfl
  · intro i1 hi1 i2 hi2 hne1 heq
    rw [hlen2] at hi1 hi2
    rw [hget i1, hget i2] at heq
    rw [hget i1] at hne1
    by_cases h1 : i1 = j <;> by_cases h2 : i2 = j
    · omega
    · rw [if_pos h1, if_neg h2] at heq
      exact absurd heq.symm (hNoK _ (getD_mem m.entries emptyEntry hi2))
    · rw [if_neg h1, if_pos h2] at heq
      exact absurd heq (hNoK _ (getD_mem m.entries emptyEntry hi1))
    · rw [if_neg h1] at hne1
      rw [if_neg h1, if_neg h2] at heq
      exact hInv.uniq i1 hi1 i2 hi2 hne1 heq
  · intro j' hj' hne' t ht
    rw [hlen2] at hj'
    rw [hcap] at ht ⊢
    simp only [hget] at hne' ht ⊢
    by_cases hjj : j' = j
    · rw [if_pos hjj] at ht ⊢
      rw [hjj] at ht
      have hstart : probeStart
          ({ hash := fnv1_hash k, key := some k, value := v } : map_entry_t).hash
          m.capacity = fnv1_hash k % m.capacity := rfl
      rw [hstart] at ht ⊢
      split
      · exact fnv1_hash_ne_zero k
      · exact hdist t ht
    · rw [if_neg hjj] at hne' ht ⊢
      have hold := hInv.probe j' hj' hne' t ht
      split
      · exact fnv1_hash_ne_zero k
      · exact hold

/-- No tombstone is present: every written slot is live. -/
def noTomb (l : List map_entry_t) : Prop := ∀ e ∈ l, e.hash ≠ 0 → e.key ≠ none

theorem noTomb_insertState (m : map_t) (k : CStr) (v : Option CStr) (j : Nat)
    (h : noTomb m.entries) : noTomb (insertState m k v j).entries := by
  intro e he h0
  rcases List.mem_or_eq_of_mem_set he with hmem | hea
  · exact h e hmem h0
  · rw [hea]
    simp

theorem model_insertState_self (m : map_t) (k : CStr) (v : Option CStr) (j : Nat)
    (hj : j < m.entries.length) (hNoK : ∀ e ∈ m.entries, e.key ≠ some k) :
    model (insertState m k v j) k = some v := by
  have hfind := find?_set_pos (fun e => decide (e.key = some k)) m.entries
    { hash := fnv1_hash k, key := some k, value := v } j hj
    (fun e he => by simpa using hNoK e he) (by simp)
  show ((m.entries.set j _).find? _).map _ = some v
  rw [hfind]
  rfl

theorem model_insertState_other (m : map_t) (k : CStr) (v : Option CStr) (j : Nat)
    (hjkey : (m.entries.getD j emptyEntry).key = none) (k2 : CStr) (hk2 : k2 ≠ k) :
    model (insertState m k v j) k2 = model m k2 := by
  have hfind := find?_set_neg (fun e => decide (e.key = some k2))
    { hash := fnv1_hash k, key := some k, value := v } emptyEntry m.entries j
    (by rw [decide_eq_true_eq, hjkey]; simp)
    (by rw [decide_eq_true_eq]; simp; exact fun h => hk2 h.symm)
  show ((m.entries.set j _).find? _).map _ = _
  rw [hfind]
  rfl

theorem map_set_insert (m : map_t) (hInv : Inv m) (k : CStr) (v : Option CStr)
    (hNoK : ∀ e ∈ m.entries, e.key ≠ some k)
    (hroom : m.allocated < m.capacity) :
    ∃ j, j < m.entries.length ∧ (m.entries.getD j emptyEntry).key = none ∧
      map_set m k v (fnv1_hash k) false = (.OK, insertState m k v j) ∧
      Inv (insertState m k v j) := by
  classical
  obtain ⟨c, hcle, hc⟩ := hInv.cap_pow
  have hpow : 0 < 2 ^ c := Nat.pos_pow_of_pos c (by norm_num)
  have hlen : m.entries.length = 2 ^ c := by rw [hInv.len_ok, hc]
  have hne := fnv1_hash_ne_zero k
  have hused : countUsed m.entries < m.entries.length := by
    rw [hlen, ← hc, ← hInv.alloc_ok]
    exact hroom
  obtain ⟨p, hp, hp0⟩ := exists_empty_slot m.entries hused
  have hp2 : p < 2 ^ c := hlen ▸ hp
  have hpd : (m.entries.getD (probeAt (2 ^ c) (fnv1_hash k % 2 ^ c)
      (cycDist (2 ^ c) (fnv1_hash k % 2 ^ c) p)) emptyEntry).hash = 0 := by
    rw [probeAt_dist _ _ _ (Nat.mod_lt _ hpow) hp2]
    exact hp0
  have hex : ∃ t,
      (m.entries.getD (probeAt (2 ^ c) (fnv1_hash k % 2 ^ c) t) emptyEntry).hash = 0 ∨
      ((m.entries.getD (probeAt (2 ^ c) (fnv1_hash k % 2 ^ c) t)
          emptyEntry).hash = fnv1_hash k ∧
       (m.entries.getD (probeAt (2 ^ c) (fnv1_hash k % 2 ^ c) t)
          emptyEntry).key = none) :=
    ⟨cycDist (2 ^ c) (fnv1_hash k % 2 ^ c) p, Or.inl hpd⟩
  have hstop := Nat.find_spec hex
  have hpath := fun u (hu : u < Nat.find hex) => Nat.find_min hex hu
  have ht0lt : Nat.find hex < 2 ^ c := by
    have hle : Nat.find hex ≤ cycDist (2 ^ c) (fnv1_hash k % 2 ^ c) p :=
      Nat.find_min' hex (Or.inl hpd)
    have := cycDist_lt (2 ^ c) (fnv1_hash k % 2 ^ c) p hpow
    omega
  have hrun := map_set_go_inserts m k v (fnv1_hash k) c hne hNoK (Nat.find hex)
    ht0lt hstop hpath (Nat.find hex) 0 (Nat.zero_le _) (by omega)
  rw [probeAt_zero _ _ (Nat.mod_lt _ hpow), Nat.sub_zero] at hrun
  have hjlt : probeAt (2 ^ c) (fnv1_hash k % 2 ^ c) (Nat.find hex) <
      m.entries.length := by
    rw [hlen]
    exact probeAt_lt _ _ _ hpow
  have hkeynone : (m.entries.getD (probeAt (2 ^ c) (fnv1_hash k % 2 ^ c)
      (Nat.find hex)) emptyEntry).key = none := by
    rcases hstop with h0 | ⟨hh2, hk2⟩
    · exact hInv.hash_zero _ (getD_mem _ _ hjlt) h0
    · exact hk2
  refine ⟨probeAt (2 ^ c) (fnv1_hash k % 2 ^ c) (Nat.find hex), hjlt, hkeynone, ?_, ?_⟩
  · show map_set_go m k v (fnv1_hash k) false (m.capacity - 1)
      (fnv1_hash k &&& (m.capacity - 1)) m.capacity = _
    rw [hc, Nat.and_pow_two_sub_one_eq_mod]
    exact hrun
  · refine Inv_insert m hInv k v _ hjlt hkeynone hNoK ?_
    intro u hu
    rw [hc] at hu ⊢
    rw [cycDist_probeAt _ _ _ (Nat.mod_lt _ hpow) ht0lt] at hu
    have hns := hpath u hu
    push_neg at hns
    exact hns.1

/-! Correctness of map_remove on a live key. -/

/-- The state after removing the live entry at slot `j`: the key pointer is
cleared, the hash is left in place (tombstone), size drops by one. -/
def removeState (m : map_t) (j : Nat) : map_t :=
  { m with
    entries := m.entries.set j { m.entries.getD j emptyEntry with key := none },
    size := m.size - 1 }

theorem countLive_set_unlive (l : List map_entry_t) (j : Nat) (hj : j < l.length)
    (a : map_entry_t) (hold : (l.getD j emptyEntry).key.isSome)
    (hnew : a.key = none) : countLive (l.set j a) + 1 = countLive l := by
  have hcount := countP_set_add (fun e => e.key.isSome) l a emptyEntry j hj
  have hcount2 : countLive (l.set j a) +
      (if (l.getD j emptyEntry).key.isSome = true then 1 else 0) =
      countLive l + (if a.key.isSome = true then 1 else 0) := hcount
  rw [hold, hnew] at hcount2
  simp only [Option.isSome_none, Bool.false_eq_true, if_false, if_true] at hcount2
  omega

theorem size_pos_of_live (m : map_t) (hInv : Inv m) (j : Nat)
    (hj : j < m.entries.length) (hlive : (m.entries.getD j emptyEntry).key.isSome) :
    1 ≤ m.size := by
  rw [hInv.size_ok]
  have : 0 < countLive m.entries :=
    List.countP_pos_iff.mpr ⟨_, getD_mem m.entries emptyEntry hj, hlive⟩
  omega

theorem removeState_getD (m : map_t) (j : Nat) (hj : j < m.entries.length) (i : Nat) :
    (removeState m j).entries.getD i emptyEntry =
      if i = j then { m.entries.getD j emptyEntry with key := none }
      else m.entries.getD i emptyEntry := by
  show (m.entries.set j _).getD i emptyEntry = _
  by_cases hij : i = j
  · subst hij
    rw [if_pos rfl]
    exact getD_set_self _ _ _ hj
  · rw [if_neg hij]
    exact getD_set_ne _ _ _ fun h => hij h.symm

theorem removeState_hash (m : map_t) (j : Nat) (hj : j < m.entries.length) (i : Nat) :
    ((removeState m j).entries.getD i emptyEntry).hash =
      (m.entries.getD i emptyEntry).hash := by
  rw [removeState_getD m j hj i]
  split
  · rename_i h
    rw [h]
  · rfl

theorem Inv_remove (m : map_t) (hInv : Inv m) (j : Nat) (hj : j < m.entries.length)
    (hlive : (m.entries.getD j emptyEntry).key.isSome) :
    Inv (removeState m j) := by
  have hget := removeState_getD m j hj
  have hhash := removeState_hash m j hj
  have hlen2 : (removeState m j).entries.length = m.entries.length :=
    List.length_set _ _ _
  have hjhash : (m.entries.getD j emptyEntry).hash ≠ 0 := by
    rw [hInv.hash_live _ (getD_mem _ _ hj) hlive]
    exact fnv1_hash_ne_zero _
  refine ⟨hInv.magic_ok, hInv.cap_pow, hInv.cap_min, ?_, ?_, ?_, ?_, ?_, ?_, ?_⟩
  · rw [hlen2]; exact hInv.len_ok
  · show m.size - 1 = countLive (m.entries.set j _)
    have h1 := countLive_set_unlive m.entries j hj
      { m.entries.getD j emptyEntry with key := none } hlive rfl
    have h2 := size_pos_of_live m hInv j hj hlive
    rw [hInv.size_ok] at h2 ⊢
    omega
  · show m.allocated = countUsed (m.entries.set j _)
    rw [countUsed_set_nonzero m.entries j hj
      { m.entries.getD j emptyEntry with key := none } hjhash hjhash, hInv.alloc_ok]
  · intro e he h0
    rcases List.mem_or_eq_of_mem_set he with hmem | hea
    · exact hInv.hash_zero e hmem h0
    · rw [hea] at h0
      exact absurd h0 hjhash
  · intro e he hs
    rcases List.mem_or_eq_of_mem_set he with hmem | hea
    · exact hInv.hash_live e hmem hs
    · rw [hea] at hs
      exact absurd hs (by simp)
  · intro i1 hi1 i2 hi2 hne1 heq
    rw [hlen2] at hi1 hi2
    rw [hget i1, hget i2] at heq
    rw [hget i1] at hne1
    by_cases h1 : i1 = j <;> by_cases h2 : i2 = j
    · omega
    · rw [if_pos h1] at hne1
      exact absurd rfl hne1
    · rw [if_neg h1, if_pos h2] at heq
      rw [if_neg h1] at hne1
      exact absurd heq hne1
    · rw [if_neg h1] at hne1
      rw [if_neg h1, if_neg h2] at heq
      exact hInv.uniq i1 hi1 i2 hi2 hne1 heq
  · intro j' hj' hne' t ht
    rw [hlen2] at hj'
    have hcap : (removeState m j).capacity = m.capacity := rfl
    rw [hcap] at ht ⊢
    simp only [hhash] at hne' ht ⊢
    exact hInv.probe j' hj' hne' t ht

theorem model_removeState_self (m : map_t) (hInv : Inv m) (k : CStr) (j : Nat)
    (hj : j < m.entries.length) (hkj : (m.entries.getD j emptyEntry).key = some k) :
    model (removeState m j) k = none := by
  rw [model_none_iff]
  intro e he hek
  obtain ⟨i, hi, hie⟩ := List.getElem_of_mem he
  have hlen2 : (removeState m j).entries.length = m.entries.length :=
    List.length_set _ _ _
  have hi2 : i < m.entries.length := by omega
  have hgi : (removeState m j).entries.getD i emptyEntry = e := by
    rw [getD_lt _ _ hi]
    exact hie
  rw [removeState_getD m j hj i] at hgi
  by_cases hij : i = j
  · rw [if_pos hij] at hgi
    rw [← hgi] at hek
    exact Option.noConfusion hek
  · rw [if_neg hij] at hgi
    have heik : (m.entries.getD i emptyEntry).key = some k := by rw [hgi, hek]
    exact hij (hInv.uniq i hi2 j hj (by rw [heik]; simp) (by rw [heik, hkj]))

theorem model_removeState_other (m : map_t) (k : CStr) (j : Nat)
    (hkj : (m.entries.getD j emptyEntry).key = some k)
    (k2 : CStr) (hk2 : k2 ≠ k) :
    model (removeState m j) k2 = model m k2 := by
  have hfind := find?_set_neg (fun e => decide (e.key = some k2))
    { m.entries.getD j emptyEntry with key := none } emptyEntry m.entries j
    (by rw [decide_eq_true_eq, hkj]; exact fun h => hk2 (Option.some.inj h).symm)
    (by rw [decide_eq_true_eq]; simp)
  show ((m.entries.set j _).find? _).map _ = _
  rw [hfind]
  rfl

theorem map_remove_live (m : map_t) (hInv : Inv m) (k : CStr) (j : Nat)
    (hj : j < m.entries.length) (hkj : (m.entries.getD j emptyEntry).key = some k) :
    map_remove m (some k) = (.OK, removeState m j) := by
  have hidx := map_indexOf_found m hInv k j hj hkj
  show (if m.magic ≠ MAGIC then ((.NOT_INIT : MapResult), m)
    else if 0 ≤ map_indexOf m k (fnv1_hash k) then
      (.OK, { m with
        entries := m.entries.set (map_indexOf m k (fnv1_hash k)).toNat
          { m.entries.getD (map_indexOf m k (fnv1_hash k)).toNat emptyEntry with
            key := none },
        size := m.size - 1 })
    else (.NO_KEY_EXISTS, m)) = (.OK, removeState m j)
  rw [if_neg (by rw [hInv.magic_ok]; exact fun hne => hne rfl), hidx,
    if_pos (by omega), Int.toNat_natCast]
  rfl

theorem map_remove_absent (m : map_t) (k : CStr)
    (hk : ∀ e ∈ m.entries, e.key ≠ some k) (hmagic : m.magic = MAGIC) :
    map_remove m (some k) = (.NO_KEY_EXISTS, m) := by
  have hidx := map_indexOf_none m k (fnv1_hash k) hk
  show (if m.magic ≠ MAGIC then ((.NOT_INIT : MapResult), m)
    else if 0 ≤ map_indexOf m k (fnv1_hash k) then
      (.OK, { m with
        entries := m.entries.set (map_indexOf m k (fnv1_hash k)).toNat
          { m.entries.getD (map_indexOf m k (fnv1_hash k)).toNat emptyEntry with
            key := none },
        size := m.size - 1 })
    else (.NO_KEY_EXISTS, m)) = (.NO_KEY_EXISTS, m)
  rw [if_neg (by rw [hmagic]; exact fun hne => hne rfl), hidx,
    if_neg (by norm_num)]

/-! The capacity-growth loop of map_optimize. -/

theorem growCap_loop (tgt : Nat) (b : Nat) (hb : tgt ≤ 2 ^ b)
    (hbmin : ∀ q, tgt ≤ 2 ^ q → b ≤ q) :
    ∀ fuel a, a ≤ b → b - a ≤ fuel → growCap fuel (2 ^ a) tgt = 2 ^ b := by
  intro fuel
  induction fuel with
  | zero =>
    intro a hab hfa
    have hab2 : a = b := by omega
    rw [hab2]
    rfl
  | succ fuel ih =>
    intro a hab hfa
    show (if 2 ^ a < tgt then growCap fuel (2 ^ a <<< 1) tgt else 2 ^ a) = 2 ^ b
    by_cases hlt : 2 ^ a < tgt
    · rw [if_pos hlt]
      have hsh : 2 ^ a <<< 1 = 2 ^ (a + 1) := by
        rw [Nat.shiftLeft_eq]
        ring
      have hax : a < b := by
        have h2 : 2 ^ a < 2 ^ b := lt_of_lt_of_le hlt hb
        exact (Nat.pow_lt_pow_iff_right (by norm_num)).mp h2
      rw [hsh]
      exact ih (a + 1) (by omega) (by omega)
    · rw [if_neg hlt]
      push_neg at hlt
      have hba : b ≤ a := hbmin a hlt
      have : a = b := by omega
      rw [this]

theorem growCap_spec (tgt : Nat) (h8 : 8 ≤ tgt) :
    IsLeastPow2Ge (growCap tgt MIN_EMPTY_SLOTS tgt) tgt := by
  classical
  have hex : ∃ q, tgt ≤ 2 ^ q := ⟨tgt, le_of_lt (Nat.lt_two_pow tgt)⟩
  have hb : tgt ≤ 2 ^ Nat.find hex := Nat.find_spec hex
  have hbmin : ∀ q, tgt ≤ 2 ^ q → Nat.find hex ≤ q := fun q hq => Nat.find_min' hex hq
  have hb3 : 3 ≤ Nat.find hex := by
    have h1 : (2 : Nat) ^ 3 ≤ 2 ^ Nat.find hex := le_trans (by norm_num) (le_trans h8 hb)
    exact (Nat.pow_le_pow_iff_right (by norm_num)).mp h1
  have hfuel : Nat.find hex - 3 ≤ tgt := by
    have h1 : ¬ tgt ≤ 2 ^ (Nat.find hex - 1) := Nat.find_min hex (by omega)
    push_neg at h1
    have h2 : Nat.find hex - 1 < 2 ^ (Nat.find hex - 1) := Nat.lt_two_pow _
    omega
  have h83 : MIN_EMPTY_SLOTS = 2 ^ 3 := rfl
  have hrun := growCap_loop tgt (Nat.find hex) hb hbmin tgt 3 hb3 (by omega)
  rw [h83, hrun]
  refine ⟨⟨Nat.find hex, rfl⟩, hb, ?_⟩
  rintro q ⟨cq, rfl⟩ hq
  exact Nat.pow_le_pow_right (by norm_num) (hbmin cq hq)

/-! Association-list view of the live entries, used for the rehash proof. -/

/-- The live entries of a slot list, in order, as key-value pairs. -/
def liveAssoc (l : List map_entry_t) : List (CStr × Option CStr) :=
  l.filterMap fun e => e.key.map fun k => (k, e.value)

/-- The keys of the live entries of a slot list, in order. -/
def keysOf (l : List map_entry_t) : List CStr := l.filterMap fun e => e.key

/-- First binding of a key in an association list. -/
def lookupAssoc (k : CStr) : List (CStr × Option CStr) → Option (Option CStr)
  | [] => none
  | (k2, v) :: tl => if k = k2 then some v else lookupAssoc k tl

theorem liveAssoc_cons_none (e : map_entry_t) (tl : List map_entry_t)
    (h : e.key = none) : liveAssoc (e :: tl) = liveAssoc tl := by
  simp [liveAssoc, List.filterMap_cons, h]

theorem liveAssoc_cons_some (e : map_entry_t) (tl : List map_entry_t) (k : CStr)
    (h : e.key = some k) : liveAssoc (e :: tl) = (k, e.value) :: liveAssoc tl := by
  simp [liveAssoc, List.filterMap_cons, h]

theorem keysOf_cons_none (e : map_entry_t) (tl : List map_entry_t)
    (h : e.key = none) : keysOf (e :: tl) = keysOf tl := by
  simp [keysOf, List.filterMap_cons, h]

theorem keysOf_cons_some (e : map_entry_t) (tl : List map_entry_t) (k : CStr)
    (h : e.key = some k) : keysOf (e :: tl) = k :: keysOf tl := by
  simp [keysOf, List.filterMap_cons, h]

theorem countLive_cons_none (e : map_entry_t) (tl : List map_entry_t)
    (h : e.key = none) : countLive (e :: tl) = countLive tl := by
  unfold countLive
  rw [List.countP_cons_of_neg]
  rw [h]
  simp

theorem countLive_cons_some (e : map_entry_t) (tl : List map_entry_t) (k : CStr)
    (h : e.key = some k) : countLive (e :: tl) = countLive tl + 1 := by
  unfold countLive
  rw [List.countP_cons_of_pos]
  rw [h]
  simp

theorem mem_keysOf (l : List map_entry_t) (k : CStr) :
    k ∈ keysOf l ↔ ∃ e ∈ l, e.key = some k := by
  unfold keysOf
  rw [List.mem_filterMap]

theorem keysOf_nodup (l : List map_entry_t)
    (huniq : ∀ i, i < l.length → ∀ j, j < l.length →
      (l.getD i emptyEntry).key ≠ none →
      (l.getD i emptyEntry).key = (l.getD j emptyEntry).key → i = j) :
    (keysOf l).Nodup := by
  induction l with
  | nil => exact List.nodup_nil
  | cons e tl ih =>
    have htail : (keysOf tl).Nodup := by
      refine ih fun i hi j hj hne heq => ?_
      have h2 := huniq (i + 1) (by simp; omega) (j + 1) (by simp; omega)
        (by rw [List.getD_cons_succ]; exact hne)
        (by rw [List.getD_cons_succ, List.getD_cons_succ]; exact heq)
      omega
    cases hek : e.key with
    | none => rw [keysOf_cons_none e tl hek]; exact htail
    | some k =>
      rw [keysOf_cons_some e tl k hek]
      refine List.Nodup.cons ?_ htail
      intro hmem
      obtain ⟨e2, he2, hk2⟩ := (mem_keysOf tl k).mp hmem
      obtain ⟨i, hi, hie⟩ := List.getElem_of_mem he2
      have h0 := huniq 0 (by simp) (i + 1) (by simp; omega)
        (by rw [List.getD_cons_zero, hek]; simp)
        (by rw [List.getD_cons_zero, List.getD_cons_succ, hek,
          getD_lt _ _ hi, hie, hk2])
      omega

theorem lookupAssoc_cons (k k2 : CStr) (v : Option CStr)
    (tl : List (CStr × Option CStr)) :
    lookupAssoc k ((k2, v) :: tl) = if k = k2 then some v else lookupAssoc k tl := rfl

theorem lookupAssoc_not_mem (k : CStr) :
    ∀ tl : List (CStr × Option CStr), k ∉ tl.map Prod.fst → lookupAssoc k tl = none := by
  intro tl
  induction tl with
  | nil => intro _; rfl
  | cons p tl ih =>
    intro hk
    obtain ⟨k2, v⟩ := p
    rw [lookupAssoc_cons, if_neg, ih]
    · intro hmem
      exact hk (by simp [hmem])
    · intro hkk
      exact hk (by simp [hkk])

theorem liveAssoc_fst (l : List map_entry_t) :
    (liveAssoc l).map Prod.fst = keysOf l := by
  induction l with
  | nil => rfl
  | cons e tl ih =>
    cases hek : e.key with
    | none => rw [liveAssoc_cons_none e tl hek, keysOf_cons_none e tl hek, ih]
    | some k =>
      rw [liveAssoc_cons_some e tl k hek, keysOf_cons_some e tl k hek,
        List.map_cons, ih]

theorem lookupAssoc_liveAssoc (k : CStr) :
    ∀ l : List map_entry_t,
      lookupAssoc k (liveAssoc l) =
        (l.find? fun e => decide (e.key = some k)).map fun e => e.value := by
  intro l
  induction l with
  | nil => rfl
  | cons e tl ih =>
    cases hek : e.key with
    | none =>
      rw [liveAssoc_cons_none e tl hek, List.find?_cons_of_neg, ih]
      simp [hek]
    | some k2 =>
      rw [liveAssoc_cons_some e tl k2 hek, lookupAssoc_cons]
      by_cases hkk : k = k2
      · rw [if_pos hkk, List.find?_cons_of_pos]
        · rfl
        · simp [hek, hkk]
      · rw [if_neg hkk, List.find?_cons_of_neg, ih]
        simp [hek]
        exact fun h => hkk h.symm

theorem lookupAssoc_model (m : map_t) (k : CStr) :
    lookupAssoc k (liveAssoc m.entries) = model m k :=
  lookupAssoc_liveAssoc k m.entries

theorem getD_replicate (n : Nat) (a d : map_entry_t) (i : Nat) :
    (List.replicate n a).getD i d = if i < n then a else d := by
  by_cases hi : i < n
  · rw [if_pos hi, getD_lt _ _ (by simpa using hi), List.getElem_replicate]
  · rw [if_neg hi, getD_of_le _ _ (by simpa using Nat.le_of_not_lt hi)]

theorem countLive_replicate (n : Nat) :
    countLive (List.replicate n emptyEntry) = 0 := by
  refine List.countP_eq_zero.mpr fun e he => ?_
  rw [List.eq_of_mem_replicate he]
  simp [emptyEntry]

theorem countUsed_replicate (n : Nat) :
    countUsed (List.replicate n emptyEntry) = 0 := by
  refine List.countP_eq_zero.mpr fun e he => ?_
  rw [List.eq_of_mem_replicate he]
  simp [emptyEntry]

theorem countUsed_eq_countLive (l : List map_entry_t)
    (h1 : ∀ e ∈ l, e.hash = 0 → e.key = none)
    (h2 : ∀ e ∈ l, e.hash ≠ 0 → e.key ≠ none) :
    countUsed l = countLive l := by
  induction l with
  | nil => rfl
  | cons e tl ih =>
    have htl := ih (fun x hx => h1 x (List.mem_cons_of_mem e hx))
      (fun x hx => h2 x (List.mem_cons_of_mem e hx))
    unfold countUsed countLive at htl ⊢
    rw [List.countP_cons, List.countP_cons, htl]
    by_cases h0 : e.hash = 0
    · have hk := h1 e (List.mem_cons_self e tl) h0
      rw [h0, hk]
      simp
    · have hk := h2 e (List.mem_cons_self e tl) h0
      have hks : e.key.isSome := by
        cases hek : e.key with
        | none => exact absurd hek hk
        | some k => rfl
      simp [h0, hks]

theorem model_replicate (m : map_t) (k : CStr)
    (hrep : ∀ e ∈ m.entries, e.key = none) : model m k = none := by
  rw [model_none_iff]
  intro e he
  rw [hrep e he]
  simp

/-! Correctness of the rehash loop of map_optimize. -/

theorem map_optimize_go_cons (cur : map_t) (e : map_entry_t)
    (rest : List map_entry_t) :
    map_optimize_go cur (e :: rest) =
      (match e.key with
       | none => map_optimize_go cur rest
       | some k =>
         if (map_set cur k e.value e.hash false).1 = .OK
         then map_optimize_go (map_set cur k e.value e.hash false).2 rest
         else (.SYS_ERROR, (map_set cur k e.value e.hash false).2)) := rfl

theorem countLive_insertState (m : map_t) (k : CStr) (v : Option CStr) (j : Nat)
    (hj : j < m.entries.length) (hjkey : (m.entries.getD j emptyEntry).key = none) :
    countLive (insertState m k v j).entries = countLive m.entries + 1 :=
  countLive_set_fresh m.entries j hj _ hjkey rfl

theorem map_optimize_go_spec :
    ∀ (rest : List map_entry_t) (cur : map_t), Inv cur → noTomb cur.entries →
      (∀ e ∈ rest, e.key.isSome → e.hash = fnv1_hash (e.key.getD [])) →
      (∀ e ∈ rest, ∀ k, e.key = some k → ∀ e2 ∈ cur.entries, e2.key ≠ some k) →
      (keysOf rest).Nodup →
      countLive cur.entries + countLive rest < cur.capacity →
      ∃ fin, map_optimize_go cur rest = (.OK, fin) ∧ Inv fin ∧ noTomb fin.entries ∧
        fin.capacity = cur.capacity ∧ fin.magic = cur.magic ∧
        fin.size = cur.size + countLive rest ∧
        (∀ k v, lookupAssoc k (liveAssoc rest) = some v → model fin k = some v) ∧
        (∀ k, lookupAssoc k (liveAssoc rest) = none → model fin k = model cur k) := by
  intro rest
  induction rest with
  | nil =>
    intro cur hInv hnt _ _ _ _
    refine ⟨cur, rfl, hInv, hnt, rfl, rfl, by simp [countLive], ?_, ?_⟩
    · intro k v hkv
      exact absurd hkv (by simp [liveAssoc, lookupAssoc])
    · intro k _
      rfl
  | cons e rest ih =>
    intro cur hInv hnt hhash hdisj hnodup hroom
    cases hek : e.key with
    | none =>
      have hcl : countLive (e :: rest) = countLive rest := countLive_cons_none e rest hek
      obtain ⟨fin, hfold, hInv3, hnt3, hcap3, hmagic3, hsize3, hm1, hm2⟩ :=
        ih cur hInv hnt
          (fun x hx => hhash x (List.mem_cons_of_mem e hx))
          (fun x hx => hdisj x (List.mem_cons_of_mem e hx))
          (by rw [keysOf_cons_none e rest hek] at hnodup; exact hnodup)
          (by rw [hcl] at hroom; exact hroom)
      refine ⟨fin, ?_, hInv3, hnt3, hcap3, hmagic3, ?_, ?_, ?_⟩
      · rw [map_optimize_go_cons]
        simp only [hek]
        exact hfold
      · rw [hcl]; exact hsize3
      · intro k v hkv
        rw [liveAssoc_cons_none e rest hek] at hkv
        exact hm1 k v hkv
      · intro k hk
        rw [liveAssoc_cons_none e rest hek] at hk
        exact hm2 k hk
    | some k0 =>
      have hmemh : e ∈ e :: rest := List.mem_cons_self e rest
      have hkisome : e.key.isSome := by rw [hek]; rfl
      have hh : e.hash = fnv1_hash k0 := by
        have h1 := hhash e hmemh hkisome
        rw [hek] at h1
        simpa using h1
      have hNoK : ∀ e2 ∈ cur.entries, e2.key ≠ some k0 :=
        fun e2 he2 => hdisj e hmemh k0 hek e2 he2
      have hcl : countLive (e :: rest) = countLive rest + 1 :=
        countLive_cons_some e rest k0 hek
      have hroomc : cur.allocated < cur.capacity := by
        rw [hInv.alloc_ok, countUsed_eq_countLive _ hInv.hash_zero hnt]
        rw [hcl] at hroom
        omega
      obtain ⟨j, hj, hjkey, heq, hInv2⟩ := map_set_insert cur hInv k0 e.value hNoK hroomc
      have hk0rest : k0 ∉ keysOf rest := by
        rw [keysOf_cons_some e rest k0 hek] at hnodup
        exact (List.nodup_cons.mp hnodup).1
      have hdisj2 : ∀ e2 ∈ rest, ∀ k, e2.key = some k →
          ∀ e3 ∈ (insertState cur k0 e.value j).entries, e3.key ≠ some k := by
        intro e2 he2 k hk e3 he3
        rcases List.mem_or_eq_of_mem_set he3 with hmem | hea
        · exact hdisj e2 (List.mem_cons_of_mem e he2) k hk e3 hmem
        · rw [hea]
          intro hkey
          have hkk0 : k = k0 := by
            have h9 : (some k0 : Option CStr) = some k := by
              simpa using hkey
            exact (Option.some.inj h9).symm
          apply hk0rest
          rw [hkk0] at hk
          exact (mem_keysOf rest k0).mpr ⟨e2, he2, hk⟩
      have hroom2 : countLive (insertState cur k0 e.value j).entries +
          countLive rest < (insertState cur k0 e.value j).capacity := by
        rw [countLive_insertState cur k0 e.value j hj hjkey]
        show _ < cur.capacity
        rw [hcl] at hroom
        omega
      obtain ⟨fin, hfold, hInv3, hnt3, hcap3, hmagic3, hsize3, hm1, hm2⟩ :=
        ih (insertState cur k0 e.value j) hInv2 (noTomb_insertState cur k0 e.value j hnt)
          (fun x hx => hhash x (List.mem_cons_of_mem e hx))
          hdisj2
          (by rw [keysOf_cons_some e rest k0 hek] at hnodup
              exact (List.nodup_cons.mp hnodup).2)
          hroom2
      refine ⟨fin, ?_, hInv3, hnt3, hcap3, hmagic3, ?_, ?_, ?_⟩
      · rw [map_optimize_go_cons]
        simp only [hek, hh, heq]
        exact hfold
      · rw [hcl]
        have hsz : (insertState cur k0 e.value j).size = cur.size + 1 := rfl
        rw [hsize3, hsz]
        omega
      · intro k v hkv
        rw [liveAssoc_cons_some e rest k0 hek, lookupAssoc_cons] at hkv
        by_cases hkk : k = k0
        · rw [if_pos hkk] at hkv
          have hnone : lookupAssoc k (liveAssoc rest) = none := by
            rw [hkk]
            refine lookupAssoc_not_mem k0 _ ?_
            rw [liveAssoc_fst]
            exact hk0rest
          rw [hm2 k hnone, hkk]
          rw [model_insertState_self cur k0 e.value j hj hNoK]
          rw [← hkv]
        · rw [if_neg hkk] at hkv
          exact hm1 k v hkv
      · intro k hk
        rw [liveAssoc_cons_some e rest k0 hek, lookupAssoc_cons] at hk
        by_cases hkk : k = k0
        · rw [if_pos hkk] at hk
          exact absurd hk (by simp)
        · rw [if_neg hkk] at hk
          rw [hm2 k hk]
          exact model_insertState_other cur k0 e.value j hjkey k hkk

/-- The state of the map right after map_optimize has installed the fresh
zeroed array of `n` slots, before re-inserting the old live entries. -/
def freshState (m : map_t) (n : Nat) : map_t :=
  { m with capacity := n, allocated := 0, size := 0,
           entries := List.replicate n emptyEntry }

theorem Inv_fresh (m : map_t) (hmagic : m.magic = MAGIC) (n c : Nat)
    (hc : n = 2 ^ c) (h8 : 8 ≤ n) : Inv (freshState m n) := by
  refine ⟨hmagic, ⟨c, ?_, hc⟩, h8, ?_, ?_, ?_, ?_, ?_, ?_, ?_⟩
  · rw [hc]
    exact le_of_lt (Nat.lt_two_pow c)
  · show (List.replicate n emptyEntry).length = n
    simp
  · show (0 : Nat) = countLive (List.replicate n emptyEntry)
    rw [countLive_replicate]
  · show (0 : Nat) = countUsed (List.replicate n emptyEntry)
    rw [countUsed_replicate]
  · intro e he _
    rw [List.eq_of_mem_replicate he]
    rfl
  · intro e he hs
    rw [List.eq_of_mem_replicate he] at hs
    exact absurd hs (by simp [emptyEntry])
  · intro i hi j hj hne heq
    exfalso
    apply hne
    show ((List.replicate n emptyEntry).getD i emptyEntry).key = none
    rw [getD_replicate]
    split <;> rfl
  · intro j hj hne t ht
    exfalso
    apply hne
    show ((List.replicate n emptyEntry).getD j emptyEntry).hash = 0
    rw [getD_replicate]
    split <;> rfl

theorem noTomb_fresh (m : map_t) (n : Nat) : noTomb (freshState m n).entries := by
  intro e he h0
  rw [List.eq_of_mem_replicate he] at h0
  exact absurd rfl h0

theorem map_optimize_spec (m : map_t) (hInv : Inv m) :
    ∃ m2, map_optimize m = (.OK, m2) ∧ Inv m2 ∧ noTomb m2.entries ∧
      IsLeastPow2Ge m2.capacity (m.size + 8) ∧
      m2.magic = m.magic ∧ m2.size = m.size ∧ m2.allocated = m.size ∧
      (∀ k, model m2 k = model m k) := by
  have hms : MIN_EMPTY_SLOTS = 8 := rfl
  obtain ⟨⟨b, hbpow⟩, hble, hbleast⟩ :=
    growCap_spec (m.size + MIN_EMPTY_SLOTS) (by omega)
  have hInv0 := Inv_fresh m hInv.magic_ok
    (growCap (m.size + MIN_EMPTY_SLOTS) MIN_EMPTY_SLOTS (m.size + MIN_EMPTY_SLOTS))
    b hbpow (by omega)
  have hrest : m.entries.take m.capacity = m.entries := by
    rw [← hInv.len_ok]
    exact List.take_length m.entries
  have hdisj : ∀ e ∈ m.entries, ∀ k, e.key = some k →
      ∀ e2 ∈ (freshState m
        (growCap (m.size + MIN_EMPTY_SLOTS) MIN_EMPTY_SLOTS
          (m.size + MIN_EMPTY_SLOTS))).entries, e2.key ≠ some k := by
    intro e he k hk e2 he2
    rw [List.eq_of_mem_replicate he2]
    simp [emptyEntry]
  have hroom : countLive (freshState m
      (growCap (m.size + MIN_EMPTY_SLOTS) MIN_EMPTY_SLOTS
        (m.size + MIN_EMPTY_SLOTS))).entries + countLive m.entries <
      (freshState m
        (growCap (m.size + MIN_EMPTY_SLOTS) MIN_EMPTY_SLOTS
          (m.size + MIN_EMPTY_SLOTS))).capacity := by
    show countLive (List.replicate _ emptyEntry) + _ < growCap _ _ _
    rw [countLive_replicate, ← hInv.size_ok]
    omega
  obtain ⟨fin, hfold, hInv3, hnt3, hcap3, hmagic3, hsize3, hm1, hm2⟩ :=
    map_optimize_go_spec m.entries
      (freshState m (growCap (m.size + MIN_EMPTY_SLOTS) MIN_EMPTY_SLOTS
        (m.size + MIN_EMPTY_SLOTS)))
      hInv0 (noTomb_fresh m _) hInv.hash_live hdisj
      (keysOf_nodup m.entries hInv.uniq) hroom
  have hsize4 : fin.size = m.size := by
    rw [hsize3]
    show 0 + countLive m.entries = m.size
    rw [← hInv.size_ok]
    omega
  refine ⟨fin, ?_, hInv3, hnt3, ?_, ?_, hsize4, ?_, ?_⟩
  · show map_optimize m = (.OK, fin)
    have hdef : map_optimize m = map_optimize_go
      (freshState m (growCap (m.size + MIN_EMPTY_SLOTS) MIN_EMPTY_SLOTS
        (m.size + MIN_EMPTY_SLOTS)))
      (m.entries.take m.capacity) := rfl
    rw [hdef, hrest]
    exact hfold
  · rw [hcap3]
    show IsLeastPow2Ge (growCap (m.size + MIN_EMPTY_SLOTS) MIN_EMPTY_SLOTS
      (m.size + MIN_EMPTY_SLOTS)) (m.size + 8)
    rw [show m.size + 8 = m.size + MIN_EMPTY_SLOTS from by omega]
    exact ⟨⟨b, hbpow⟩, hble, hbleast⟩
  · rw [hmagic3]
    rfl
  · rw [hInv3.alloc_ok, countUsed_eq_countLive fin.entries hInv3.hash_zero hnt3,
      ← hInv3.size_ok, hsize4]
  · intro k
    cases hLk : lookupAssoc k (liveAssoc m.entries) with
    | some v =>
      rw [hm1 k v hLk]
      rw [lookupAssoc_model] at hLk
      exact hLk.symm
    | none =>
      rw [hm2 k hLk]
      rw [lookupAssoc_model] at hLk
      have hrep : model (freshState m
          (growCap (m.size + MIN_EMPTY_SLOTS) MIN_EMPTY_SLOTS
            (m.size + MIN_EMPTY_SLOTS))) k = none := by
        refine model_replicate _ k fun e he => ?_
        have he2 : e ∈ List.replicate
            (growCap (m.size + MIN_EMPTY_SLOTS) MIN_EMPTY_SLOTS
              (m.size + MIN_EMPTY_SLOTS)) emptyEntry := he
        rw [List.eq_of_mem_replicate he2]
        rfl
      rw [hrep, hLk]

/-! The public API: init, put, get, size. -/

theorem Inv_map_init (x : map_t) : Inv (map_init x) :=
  Inv_fresh (map_init x) rfl MIN_EMPTY_SLOTS 3 rfl (by decide)

theorem noTomb_map_init (x : map_t) : noTomb (map_init x).entries :=
  noTomb_fresh (map_init x) MIN_EMPTY_SLOTS

theorem model_map_init (x : map_t) (k : CStr) : model (map_init x) k = none := by
  refine model_replicate _ k fun e he => ?_
  have he2 : e ∈ List.replicate MIN_EMPTY_SLOTS emptyEntry := he
  rw [List.eq_of_mem_replicate he2]
  rfl

theorem alloc_eq_size_of_noTomb (m : map_t) (hInv : Inv m)
    (hnt : noTomb m.entries) : m.allocated = m.size := by
  rw [hInv.alloc_ok, countUsed_eq_countLive m.entries hInv.hash_zero hnt,
    ← hInv.size_ok]

theorem map_put_null (m : map_t) (v : Option CStr) :
    map_put m none v = (.NULL_POINTER, m) := rfl

theorem map_put_model_some (m : map_t) (hInv : Inv m) (k : CStr)
    (v1 v2 : Option CStr) (h : model m k = some v1) :
    map_put m (some k) v2 = (.KEY_EXISTS, m) := by
  obtain ⟨j, hj, hkj, hval⟩ := model_some_index m k v1 h
  have hidx := map_indexOf_found m hInv k j hj hkj
  show (if m.magic ≠ MAGIC then ((.NOT_INIT : MapResult), m)
    else if 0 ≤ map_indexOf m k (fnv1_hash k) then (.KEY_EXISTS, m)
    else map_set (if m.allocated ≥ m.capacity then (map_optimize m).2 else m)
      k v2 (fnv1_hash k) false) = (.KEY_EXISTS, m)
  rw [if_neg (by rw [hInv.magic_ok]; exact fun hne => hne rfl), hidx,
    if_pos (by omega)]

theorem map_put_new (m : map_t) (hInv : Inv m) (k : CStr) (v : Option CStr)
    (habs : model m k = none) :
    ∃ m2, map_put m (some k) v = (.OK, m2) ∧ Inv m2 ∧
      model m2 k = some v ∧ (∀ k2, k2 ≠ k → model m2 k2 = model m k2) ∧
      m2.size = m.size + 1 ∧
      (noTomb m.entries → noTomb m2.entries) ∧
      (m.allocated < m.capacity → m2.capacity = m.capacity) ∧
      (m.capacity ≤ m.allocated → IsLeastPow2Ge m2.capacity (m.size + 8)) := by
  have hNoK : ∀ e ∈ m.entries, e.key ≠ some k := (model_none_iff m k).mp habs
  have hidx := map_indexOf_none m k (fnv1_hash k) hNoK
  by_cases hfull : m.allocated ≥ m.capacity
  · obtain ⟨m1, hopt, hInv1, hnt1, hleast1, hmagic1, hsize1, halloc1, hmodel1⟩ :=
      map_optimize_spec m hInv
    have habs1 : model m1 k = none := by rw [hmodel1 k]; exact habs
    have hNoK1 : ∀ e ∈ m1.entries, e.key ≠ some k := (model_none_iff m1 k).mp habs1
    have hroom1 : m1.allocated < m1.capacity := by
      have h1 : m.size + 8 ≤ m1.capacity := hleast1.2.1
      omega
    obtain ⟨j, hj, hjkey, hset, hInv2⟩ := map_set_insert m1 hInv1 k v hNoK1 hroom1
    refine ⟨insertState m1 k v j, ?_, hInv2, ?_, ?_, ?_, ?_, ?_, ?_⟩
    · show (if m.magic ≠ MAGIC then ((.NOT_INIT : MapResult), m)
        else if 0 ≤ map_indexOf m k (fnv1_hash k) then (.KEY_EXISTS, m)
        else map_set (if m.allocated ≥ m.capacity then (map_optimize m).2 else m)
          k v (fnv1_hash k) false) = (.OK, insertState m1 k v j)
      rw [if_neg (by rw [hInv.magic_ok]; exact fun hne => hne rfl), hidx,
        if_neg (by norm_num), if_pos hfull, hopt]
      exact hset
    · exact model_insertState_self m1 k v j hj hNoK1
    · intro k2 hk2
      rw [model_insertState_other m1 k v j hjkey k2 hk2]
      exact hmodel1 k2
    · show m1.size + 1 = m.size + 1
      omega
    · intro _
      exact noTomb_insertState m1 k v j hnt1
    · intro hlt
      omega
    · intro _
      show IsLeastPow2Ge m1.capacity (m.size + 8)
      exact hleast1
  · push_neg at hfull
    obtain ⟨j, hj, hjkey, hset, hInv2⟩ := map_set_insert m hInv k v hNoK hfull
    refine ⟨insertState m k v j, ?_, hInv2, ?_, ?_, rfl, ?_, ?_, ?_⟩
    · show (if m.magic ≠ MAGIC then ((.NOT_INIT : MapResult), m)
        else if 0 ≤ map_indexOf m k (fnv1_hash k) then (.KEY_EXISTS, m)
        else map_set (if m.allocated ≥ m.capacity then (map_optimize m).2 else m)
          k v (fnv1_hash k) false) = (.OK, insertState m k v j)
      rw [if_neg (by rw [hInv.magic_ok]; exact fun hne => hne rfl), hidx,
        if_neg (by norm_num), if_neg (by omega)]
      exact hset
    · exact model_insertState_self m k v j hj hNoK
    · intro k2 hk2
      exact model_insertState_other m k v j hjkey k2 hk2
    · intro hnt
      exact noTomb_insertState m k v j hnt
    · intro _
      rfl
    · intro hge
      omega

theorem map_put_not_init (m : map_t) (hm : m.magic ≠ MAGIC) (k : Option CStr)
    (v : Option CStr) (hk : k ≠ none) : map_put m k v = (.NOT_INIT, m) := by
  cases k with
  | none => exact absurd rfl hk
  | some k2 =>
    show (if m.magic ≠ MAGIC then ((.NOT_INIT : MapResult), m)
      else if 0 ≤ map_indexOf m k2 (fnv1_hash k2) then (.KEY_EXISTS, m)
      else map_set (if m.allocated ≥ m.capacity then (map_optimize m).2 else m)
        k2 v (fnv1_hash k2) false) = (.NOT_INIT, m)
    rw [if_pos hm]

theorem map_remove_not_init (m : map_t) (hm : m.magic ≠ MAGIC) (k : Option CStr)
    (hk : k ≠ none) : map_remove m k = (.NOT_INIT, m) := by
  cases k with
  | none => exact absurd rfl hk
  | some k2 =>
    show (if m.magic ≠ MAGIC then ((.NOT_INIT : MapResult), m)
      else if 0 ≤ map_indexOf m k2 (fnv1_hash k2) then
        (.OK, { m with
          entries := m.entries.set (map_indexOf m k2 (fnv1_hash k2)).toNat
            { m.entries.getD (map_indexOf m k2 (fnv1_hash k2)).toNat emptyEntry with
              key := none },
          size := m.size - 1 })
      else (.NO_KEY_EXISTS, m)) = (.NOT_INIT, m)
    rw [if_pos hm]

theorem map_get_not_init (m : map_t) (hm : m.magic ≠ MAGIC) (k : Option CStr) :
    map_get m k = none := by
  cases k with
  | none => rfl
  | some k2 =>
    show (if m.magic ≠ MAGIC then none
      else if map_indexOf m k2 (fnv1_hash k2) < 0 then none
      else (m.entries.getD (map_indexOf m k2 (fnv1_hash k2)).toNat emptyEntry).value)
      = none
    rw [if_pos hm]

theorem map_size_not_init (m : map_t) (hm : m.magic ≠ MAGIC) : map_size m = 0 := by
  show (if m.magic ≠ MAGIC then 0 else m.size) = 0
  rw [if_pos hm]

theorem map_size_eq (m : map_t) (hm : m.magic = MAGIC) : map_size m = m.size := by
  show (if m.magic ≠ MAGIC then 0 else m.size) = m.size
  rw [if_neg (by rw [hm]; exact fun hne => hne rfl)]

theorem map_get_congr (m m2 : map_t) (hInv : Inv m) (hInv2 : Inv m2) (k : CStr)
    (h : model m2 k = model m k) : map_get m2 (some k) = map_get m (some k) := by
  cases hm : model m k with
  | some v =>
    rw [map_get_of_model_some m hInv k v hm,
      map_get_of_model_some m2 hInv2 k v (by rw [h, hm])]
  | none =>
    rw [map_get_of_model_none m k hm, map_get_of_model_none m2 k (by rw [h, hm])]

/-! Preservation of the invariants by every public operation. -/

theorem Inv_applyOp (m : map_t) (hInv : Inv m) (op : MapOp) : Inv (applyOp m op) := by
  cases op with
  | putOp key val =>
    cases key with
    | none => exact hInv
    | some k =>
      show Inv (map_put m (some k) val).2
      cases hmk : model m k with
      | some v1 =>
        rw [map_put_model_some m hInv k v1 val hmk]
        exact hInv
      | none =>
        obtain ⟨m2, heq, hInv2, -⟩ := map_put_new m hInv k val hmk
        rw [heq]
        exact hInv2
  | removeOp key =>
    cases key with
    | none => exact hInv
    | some k =>
      show Inv (map_remove m (some k)).2
      cases hmk : model m k with
      | some v1 =>
        obtain ⟨j, hj, hkj, hval⟩ := model_some_index m k v1 hmk
        rw [map_remove_live m hInv k j hj hkj]
        exact Inv_remove m hInv j hj (by rw [hkj]; rfl)
      | none =>
        rw [map_remove_absent m k ((model_none_iff m k).mp hmk) hInv.magic_ok]
        exact hInv
  | getOp key => exact hInv
  | sizeOp => exact hInv

theorem model_applyOp_other (m : map_t) (hInv : Inv m) (op : MapOp) (k0 : CStr)
    (hop : opKey op ≠ some k0) : model (applyOp m op) k0 = model m k0 := by
  cases op with
  | putOp key val =>
    cases key with
    | none => rfl
    | some k =>
      have hkk0 : k0 ≠ k := fun h => hop (by rw [h]; rfl)
      show model (map_put m (some k) val).2 k0 = model m k0
      cases hmk : model m k with
      | some v1 => rw [map_put_model_some m hInv k v1 val hmk]
      | none =>
        obtain ⟨m2, heq, -, -, hother, -⟩ := map_put_new m hInv k val hmk
        rw [heq]
        exact hother k0 hkk0
  | removeOp key =>
    cases key with
    | none => rfl
    | some k =>
      have hkk0 : k0 ≠ k := fun h => hop (by rw [h]; rfl)
      show model (map_remove m (some k)).2 k0 = model m k0
      cases hmk : model m k with
      | some v1 =>
        obtain ⟨j, hj, hkj, hval⟩ := model_some_index m k v1 hmk
        rw [map_remove_live m hInv k j hj hkj]
        exact model_removeState_other m k j hkj k0 hkk0
      | none =>
        rw [map_remove_absent m k ((model_none_iff m k).mp hmk) hInv.magic_ok]
  | getOp key => rfl
  | sizeOp => rfl

theorem applyOps_cons (m : map_t) (op : MapOp) (ops : List MapOp) :
    applyOps m (op :: ops) = applyOps (applyOp m op) ops := rfl

theorem applyOps_keeps (k0 : CStr) :
    ∀ (ops : List MapOp) (m : map_t), Inv m →
      (∀ op ∈ ops, opKey op ≠ some k0) →
      Inv (applyOps m ops) ∧ model (applyOps m ops) k0 = model m k0 := by
  intro ops
  induction ops with
  | nil => exact fun m hInv _ => ⟨hInv, rfl⟩
  | cons op ops ih =>
    intro m hInv hops
    rw [applyOps_cons]
    obtain ⟨h1, h2⟩ := ih (applyOp m op) (Inv_applyOp m hInv op)
      (fun o ho => hops o (List.mem_cons_of_mem op ho))
    refine ⟨h1, ?_⟩
    rw [h2]
    exact model_applyOp_other m hInv op k0 (hops op (List.mem_cons_self op ops))

/-- The numeric part of the capacity invariant, as the spec states it. -/
def goodNums (m : map_t) : Prop :=
  (∃ c, m.capacity = 2 ^ c) ∧ 8 ≤ m.capacity ∧
    m.size ≤ m.allocated ∧ m.allocated ≤ m.capacity

theorem goodNums_of_Inv (m : map_t) (hInv : Inv m) : goodNums m := by
  obtain ⟨c, -, hc⟩ := hInv.cap_pow
  refine ⟨⟨c, hc⟩, hInv.cap_min, ?_, ?_⟩
  · rw [hInv.size_ok, hInv.alloc_ok]
    refine List.countP_mono_left fun e he hs => ?_
    have hh := hInv.hash_live e he (by simpa using hs)
    simp only [decide_eq_true_eq]
    rw [hh]
    exact fnv1_hash_ne_zero _
  · rw [hInv.alloc_ok, ← hInv.len_ok]
    exact List.countP_le_length _

/-! Chains of distinct fresh insertions (for the growth scenario). -/

/-- Fold a list of keys through map_put, valuing each key by `f`. -/
def putAll (m : map_t) (ks : List CStr) (f : CStr → Option CStr) : map_t :=
  ks.foldl (fun m k => (map_put m (some k) (f k)).2) m

/-- Every map_put call of the chain returned OK. -/
def putAllOk : map_t → List CStr → (CStr → Option CStr) → Prop
  | _, [], _ => True
  | m, k :: ks, f => (map_put m (some k) (f k)).1 = .OK ∧
      putAllOk (map_put m (some k) (f k)).2 ks f

theorem putAll_cons (m : map_t) (k : CStr) (ks : List CStr) (f : CStr → Option CStr) :
    putAll m (k :: ks) f = putAll (map_put m (some k) (f k)).2 ks f := rfl

theorem put_chain_nogrow :
    ∀ (ks : List CStr) (f : CStr → Option CStr) (m : map_t), Inv m →
      noTomb m.entries → ks.Nodup → (∀ k ∈ ks, model m k = none) →
      m.allocated + ks.length ≤ m.capacity →
      putAllOk m ks f ∧ Inv (putAll m ks f) ∧ noTomb (putAll m ks f).entries ∧
      (putAll m ks f).capacity = m.capacity ∧
      (putAll m ks f).size = m.size + ks.length ∧
      (putAll m ks f).allocated = m.allocated + ks.length ∧
      (∀ k ∈ ks, model (putAll m ks f) k = some (f k)) ∧
      (∀ k2, k2 ∉ ks → model (putAll m ks f) k2 = model m k2) := by
  intro ks
  induction ks with
  | nil =>
    intro f m hInv hnt _ _ _
    exact ⟨trivial, hInv, hnt, rfl, by simp [putAll], by simp [putAll],
      fun k hk => absurd hk (List.not_mem_nil k), fun k2 _ => rfl⟩
  | cons k ks ih =>
    intro f m hInv hnt hnd habs hroom
    have hk := habs k (List.mem_cons_self k ks)
    obtain ⟨m2, heq, hInv2, hmk, hother, hsize2, hntp, hcaplt, hcapge⟩ :=
      map_put_new m hInv k (f k) hk
    have hsnd : (map_put m (some k) (f k)).2 = m2 := by rw [heq]
    have hlt : m.allocated < m.capacity := by
      have : ks.length + 1 = (k :: ks).length := rfl
      omega
    have hcap : m2.capacity = m.capacity := hcaplt hlt
    have hnt2 : noTomb m2.entries := hntp hnt
    have halloc2 : m2.allocated = m.allocated + 1 := by
      have h1 := alloc_eq_size_of_noTomb m2 hInv2 hnt2
      have h0 := alloc_eq_size_of_noTomb m hInv hnt
      omega
    have hnd2 := List.nodup_cons.mp hnd
    have habs2 : ∀ k2 ∈ ks, model m2 k2 = none := by
      intro k2 hk2
      rw [hother k2 (fun he => hnd2.1 (he ▸ hk2))]
      exact habs k2 (List.mem_cons_of_mem _ hk2)
    have hroom2 : m2.allocated + ks.length ≤ m2.capacity := by
      have : (k :: ks).length = ks.length + 1 := rfl
      omega
    obtain ⟨hok, hInv3, hnt3, hcap3, hsize3, halloc3, hmem3, hout3⟩ :=
      ih f m2 hInv2 hnt2 hnd2.2 habs2 hroom2
    rw [putAll_cons, hsnd]
    refine ⟨⟨by rw [heq], by rw [hsnd]; exact hok⟩, hInv3, hnt3, by rw [hcap3, hcap],
      ?_, ?_, ?_, ?_⟩
    · rw [hsize3, hsize2]
      simp [List.length_cons]
      omega
    · rw [halloc3, halloc2]
      simp [List.length_cons]
      omega
    · intro k2 hk2
      rcases List.mem_cons.mp hk2 with hke | hkm
      · rw [hke, hout3 k hnd2.1, hmk]
      · exact hmem3 k2 hkm
    · intro k2 hk2
      rw [hout3 k2 (fun hm2 => hk2 (List.mem_cons_of_mem _ hm2)),
        hother k2 (fun he => hk2 (he ▸ List.mem_cons_self k ks))]

/-! Concrete states used by the witnesses. -/

/-- An arbitrary (zeroed) map object handed to map_init. -/
def dummyMap : map_t :=
  { magic := 0, capacity := 0, size := 0, allocated := 0, entries := [] }

/-- A freshly initialized map holding the single binding "a" to "1". -/
def oneKeyMap : map_t :=
  (map_put (map_init dummyMap) (some [97]) (some [49])).2

theorem Inv_oneKeyMap : Inv oneKeyMap :=
  Inv_applyOp (map_init dummyMap) (Inv_map_init dummyMap)
    (MapOp.putOp (some [97]) (some [49]))

/-- The eight pairwise distinct single-byte keys of the growth scenario. -/
def c8_keys : List CStr :=
  [[97], [98], [99], [100], [101], [102], [103], [104]]

/-- State after inserting the first seven of the eight keys. -/
def c8_m7 : map_t := putAll (map_init dummyMap) (c8_keys.take 7) fun k => some k

/-- State after inserting all eight keys. -/
def c8_m8 : map_t := putAll (map_init dummyMap) c8_keys fun k => some k

/-! The claims. -/

/-- C1: on a map satisfying the data-model invariants, if map_put of a
non-null key k with value v returns OK, then map_get of k returns v, and it
keeps returning v after any further sequence of put/remove/get/size calls
none of which passes the key k (such puts may internally trigger the
optimization rehash). -/
theorem C1_round_trip (m m1 : map_t) (k : CStr) (v : Option CStr)
    (hInv : Inv m) (hput : map_put m (some k) v = (.OK, m1))
    (ops : List MapOp) (hops : ∀ op ∈ ops, opKey op ≠ some k) :
    map_get m1 (some k) = v ∧ map_get (applyOps m1 ops) (some k) = v := by
  have hm1 : Inv m1 ∧ model m1 k = some v := by
    cases hmk : model m k with
    | some v1 =>
      rw [map_put_model_some m hInv k v1 v hmk] at hput
      exact absurd (congrArg Prod.fst hput) (by simp)
    | none =>
      obtain ⟨m2, heq, hInv2, hmk2, -⟩ := map_put_new m hInv k v hmk
      rw [heq] at hput
      have hm2 : m2 = m1 := congrArg Prod.snd hput
      rw [← hm2]
      exact ⟨hInv2, hmk2⟩
  obtain ⟨hInv1, hmod1⟩ := hm1
  obtain ⟨hInv2, hmod2⟩ := applyOps_keeps k ops m1 hInv1 hops
  exact ⟨map_get_of_model_some m1 hInv1 k v hmod1,
    map_get_of_model_some (applyOps m1 ops) hInv2 k v (by rw [hmod2, hmod1])⟩

theorem C1_witness :
    Inv (map_init dummyMap) ∧
    map_get oneKeyMap (some [97]) = some [49] ∧
    map_get (applyOps oneKeyMap
      [MapOp.putOp (some [98]) (some [50]), MapOp.removeOp (some [98])])
      (some [97]) = some [49] := by
  have h := C1_round_trip (map_init dummyMap) oneKeyMap [97] (some [49])
    (Inv_map_init dummyMap) (by decide)
    [MapOp.putOp (some [98]) (some [50]), MapOp.removeOp (some [98])] (by decide)
  exact ⟨Inv_map_init dummyMap, h.1, h.2⟩

/-- C2: for every zero-terminated string (a byte list with no interior
zero), fnv1_hash equals the fold that XORs each byte into the hash and then
multiplies by the FNV prime, with the sign bit forced afterwards; the
result always has the 64-bit sign bit set, is therefore negative as a
signed 64-bit value, and in particular is never 0. -/
theorem C2_fnv1_contract (text : CStr) (hz : NulFree text) :
    fnv1_hash text = fnv1_fold text ||| 0x8000000000000000 ∧
    2 ^ 63 ≤ fnv1_hash text ∧ fnv1_hash text < 2 ^ 64 ∧
    toSigned (fnv1_hash text) < 0 ∧ fnv1_hash text ≠ 0 := by
  have h1 : fnv1_hash text = fnv1_fold text ||| 0x8000000000000000 := by
    unfold fnv1_hash fnv1_fold
    rw [fnv1_go_eq_foldl text hz]
  have h2 := fnv1_hash_ge text
  have h3 := fnv1_hash_lt text
  refine ⟨h1, h2, h3, ?_, fnv1_hash_ne_zero text⟩
  unfold toSigned
  rw [if_neg (by omega)]
  have h4 : ((fnv1_hash text : Int)) < 2 ^ 64 := by exact_mod_cast h3
  omega

theorem C2_witness :
    NulFree [104, 105] ∧
    fnv1_hash [104, 105] = fnv1_fold [104, 105] ||| 0x8000000000000000 ∧
    toSigned (fnv1_hash [104, 105]) < 0 ∧ fnv1_hash [104, 105] ≠ 0 := by
  have h := C2_fnv1_contract [104, 105] (by decide)
  exact ⟨by decide, h.1, h.2.2.2.1, h.2.2.2.2⟩

/-- C3: on a map satisfying the invariants in which key k is live with
value v1, a second map_put of k returns KEY_EXISTS and returns the map
state completely unchanged; map_get of k still yields v1. -/
theorem C3_put_duplicate (m : map_t) (hInv : Inv m) (k : CStr)
    (v1 v2 : Option CStr) (hstored : model m k = some v1) :
    map_put m (some k) v2 = (.KEY_EXISTS, m) ∧ map_get m (some k) = v1 :=
  ⟨map_put_model_some m hInv k v1 v2 hstored,
   map_get_of_model_some m hInv k v1 hstored⟩

theorem C3_witness :
    map_put oneKeyMap (some [97]) (some [50]) = (.KEY_EXISTS, oneKeyMap) ∧
    map_get oneKeyMap (some [97]) = some [49] :=
  C3_put_duplicate oneKeyMap Inv_oneKeyMap [97] (some [49]) (some [50]) (by decide)

/-- C4: on every map state satisfying the invariants, map_optimize returns
OK with the new capacity the least power of two at least size + 8, the
allocated counter equal to size, every previously live key still mapped to
its previous value, and no tombstone present in the new slot array. -/
theorem C4_optimize_contract (m : map_t) (hInv : Inv m) :
    ∃ m2, map_optimize m = (.OK, m2) ∧
      IsLeastPow2Ge m2.capacity (m.size + 8) ∧
      m2.allocated = m.size ∧
      (∀ k v, model m k = some v → map_get m2 (some k) = v) ∧
      (∀ e ∈ m2.entries, e.hash ≠ 0 → e.key ≠ none) := by
  obtain ⟨m2, hopt, hInv2, hnt2, hleast, hmagic, hsize, halloc, hmodel⟩ :=
    map_optimize_spec m hInv
  refine ⟨m2, hopt, hleast, halloc, ?_, hnt2⟩
  intro k v hkv
  exact map_get_of_model_some m2 hInv2 k v (by rw [hmodel k, hkv])

theorem C4_witness :
    Inv oneKeyMap ∧
    ∃ m2, map_optimize oneKeyMap = (.OK, m2) ∧
      IsLeastPow2Ge m2.capacity (oneKeyMap.size + 8) ∧
      m2.allocated = oneKeyMap.size ∧
      (∀ k v, model oneKeyMap k = some v → map_get m2 (some k) = v) ∧
      (∀ e ∈ m2.entries, e.hash ≠ 0 → e.key ≠ none) :=
  ⟨Inv_oneKeyMap, C4_optimize_contract oneKeyMap Inv_oneKeyMap⟩

/-- C5: on every map state satisfying the data-model invariants, the
re-insertion loop of map_optimize never fails, so the SYS_ERROR branch is
never taken and map_optimize returns OK. -/
theorem C5_optimize_no_sys_error (m : map_t) (hInv : Inv m) :
    (map_optimize m).1 = .OK := by
  obtain ⟨m2, hopt, -⟩ := map_optimize_spec m hInv
  rw [hopt]

theorem C5_witness :
    Inv oneKeyMap ∧ (map_optimize oneKeyMap).1 = .OK :=
  ⟨Inv_oneKeyMap, C5_optimize_no_sys_error oneKeyMap Inv_oneKeyMap⟩

/-- C6: after map_init, and after any public operation applied to a map
satisfying the data-model invariants, the capacity is a power of two of at
least 8 and size ≤ allocated ≤ capacity holds (map_get and map_size do not
change the state at all). -/
theorem C6_capacity_invariant (x : map_t) (m : map_t) (hInv : Inv m)
    (op : MapOp) :
    goodNums (map_init x) ∧ goodNums (applyOp m op) :=
  ⟨goodNums_of_Inv _ (Inv_map_init x), goodNums_of_Inv _ (Inv_applyOp m hInv op)⟩

theorem C6_witness :
    Inv oneKeyMap ∧
    goodNums (map_init dummyMap) ∧
    goodNums (applyOp oneKeyMap (MapOp.removeOp (some [97]))) :=
  ⟨Inv_oneKeyMap,
   C6_capacity_invariant dummyMap oneKeyMap Inv_oneKeyMap
     (MapOp.removeOp (some [97]))⟩

/-- C7: on a map satisfying the invariants, removing a live key k returns
OK, clears exactly that slot's key while keeping its hash (a tombstone),
decrements size by exactly one, keeps allocated and capacity, makes
map_get of k absent, and keeps every other key retrievable with its value;
removing an absent key returns NO_KEY_EXISTS and changes nothing. -/
theorem C7_remove_contract (m : map_t) (hInv : Inv m) (k : CStr) :
    (∀ v, model m k = some v →
      ∃ j, j < m.entries.length ∧
        (m.entries.getD j emptyEntry).key = some k ∧
        map_remove m (some k) = (.OK, removeState m j) ∧
        ((removeState m j).entries.getD j emptyEntry).hash =
          (m.entries.getD j emptyEntry).hash ∧
        ((removeState m j).entries.getD j emptyEntry).key = none ∧
        (removeState m j).size + 1 = m.size ∧
        (removeState m j).allocated = m.allocated ∧
        (removeState m j).capacity = m.capacity ∧
        map_get (removeState m j) (some k) = none ∧
        (∀ k2, k2 ≠ k →
          map_get (removeState m j) (some k2) = map_get m (some k2))) ∧
    (model m k = none → map_remove m (some k) = (.NO_KEY_EXISTS, m)) := by
  constructor
  · intro v hv
    obtain ⟨j, hj, hkj, hval⟩ := model_some_index m k v hv
    have hlive : (m.entries.getD j emptyEntry).key.isSome := by rw [hkj]; rfl
    have hInv2 := Inv_remove m hInv j hj hlive
    refine ⟨j, hj, hkj, map_remove_live m hInv k j hj hkj, ?_, ?_, ?_, rfl, rfl,
      ?_, ?_⟩
    · exact removeState_hash m j hj j
    · rw [removeState_getD m j hj j, if_pos rfl]
    · have hpos := size_pos_of_live m hInv j hj hlive
      show m.size - 1 + 1 = m.size
      omega
    · exact map_get_of_model_none _ k (model_removeState_self m hInv k j hj hkj)
    · intro k2 hk2
      exact map_get_congr m (removeState m j) hInv hInv2 k2
        (model_removeState_other m k j hkj k2 hk2)
  · intro hnone
    exact map_remove_absent m k ((model_none_iff m k).mp hnone) hInv.magic_ok

theorem C7_witness :
    Inv oneKeyMap ∧
    ((∀ v, model oneKeyMap [97] = some v →
      ∃ j, j < oneKeyMap.entries.length ∧
        (oneKeyMap.entries.getD j emptyEntry).key = some [97] ∧
        map_remove oneKeyMap (some [97]) = (.OK, removeState oneKeyMap j) ∧
        ((removeState oneKeyMap j).entries.getD j emptyEntry).hash =
          (oneKeyMap.entries.getD j emptyEntry).hash ∧
        ((removeState oneKeyMap j).entries.getD j emptyEntry).key = none ∧
        (removeState oneKeyMap j).size + 1 = oneKeyMap.size ∧
        (removeState oneKeyMap j).allocated = oneKeyMap.allocated ∧
        (removeState oneKeyMap j).capacity = oneKeyMap.capacity ∧
        map_get (removeState oneKeyMap j) (some [97]) = none ∧
        (∀ k2, k2 ≠ [97] →
          map_get (removeState oneKeyMap j) (some k2) =
            map_get oneKeyMap (some k2))) ∧
     (model oneKeyMap [97] = none →
       map_remove oneKeyMap (some [97]) = (.NO_KEY_EXISTS, oneKeyMap))) :=
  ⟨Inv_oneKeyMap, C7_remove_contract oneKeyMap Inv_oneKeyMap [97]⟩

/-- C8 counterexample: with the eight pairwise distinct keys "a".."h"
inserted into a freshly initialized map, the eighth put runs with
allocated = 7 < capacity = 8, so the optimization guard of map_put does
not fire; the put returns OK and leaves the capacity at 8, whereas an
optimization at that point would have set the capacity to 16 (as
map_optimize applied to the pre-state shows).  Hence the eighth distinct
put does not trigger the optimization, contrary to the claim. -/
theorem C8_counterexample :
    c8_m7.allocated = 7 ∧ c8_m7.capacity = 8 ∧
    ¬ c8_m7.allocated ≥ c8_m7.capacity ∧
    map_put c8_m7 (some [104]) (some [104]) = (.OK, c8_m8) ∧
    c8_m8.capacity = 8 ∧ c8_m8.allocated = 8 ∧ map_size c8_m8 = 8 ∧
    (map_optimize c8_m7).2.capacity = 16 := by decide

/-- C8 (amended): starting from a freshly initialized map (capacity 8),
eight puts of pairwise distinct keys all return OK without triggering the
optimization: the capacity is still 8, allocated has reached 8, size is 8
and every one of the eight keys is retrievable with its value.  It is the
ninth distinct put that triggers the optimization (the guard
allocated ≥ capacity now holds) as an internal, non-error step: it returns
OK, the capacity becomes 16, and afterwards size is 9 and all nine keys
are retrievable with their values. -/
theorem C8_amended (x : map_t) (ks : List CStr) (f : CStr → Option CStr)
    (hnd : ks.Nodup) (hlen : ks.length = 8) (k9 : CStr) (hk9 : k9 ∉ ks)
    (v9 : Option CStr) :
    putAllOk (map_init x) ks f ∧
    (putAll (map_init x) ks f).capacity = 8 ∧
    (putAll (map_init x) ks f).allocated = 8 ∧
    map_size (putAll (map_init x) ks f) = 8 ∧
    (∀ k ∈ ks, map_get (putAll (map_init x) ks f) (some k) = f k) ∧
    (putAll (map_init x) ks f).capacity ≤ (putAll (map_init x) ks f).allocated ∧
    ∃ m9, map_put (putAll (map_init x) ks f) (some k9) v9 = (.OK, m9) ∧
      m9.capacity = 16 ∧ map_size m9 = 9 ∧
      map_get m9 (some k9) = v9 ∧
      (∀ k ∈ ks, map_get m9 (some k) = f k) := by
  have hcap0 : (map_init x).capacity = 8 := rfl
  have halloc0 : (map_init x).allocated = 0 := rfl
  have hsize0 : (map_init x).size = 0 := rfl
  obtain ⟨hok, hInv8, hnt8, hcap8, hsize8, halloc8, hmem8, hout8⟩ :=
    put_chain_nogrow ks f (map_init x) (Inv_map_init x) (noTomb_map_init x)
      hnd (fun k _ => model_map_init x k) (by omega)
  have hcap8n : (putAll (map_init x) ks f).capacity = 8 := by rw [hcap8, hcap0]
  have hsize8n : (putAll (map_init x) ks f).size = 8 := by
    rw [hsize8, hsize0, hlen]
  have halloc8n : (putAll (map_init x) ks f).allocated = 8 := by
    rw [halloc8, halloc0, hlen]
  have habs9 : model (putAll (map_init x) ks f) k9 = none := by
    rw [hout8 k9 hk9]
    exact model_map_init x k9
  obtain ⟨m9, heq9, hInv9, hmk9, hother9, hsize9, hnt9, hcaplt9, hcapge9⟩ :=
    map_put_new (putAll (map_init x) ks f) hInv8 k9 v9 habs9
  have hleast9 := hcapge9 (by omega)
  have hcap9 : m9.capacity = 16 := by
    have h1 : (putAll (map_init x) ks f).size + 8 ≤ m9.capacity := hleast9.2.1
    have h2 : m9.capacity ≤ 16 :=
      hleast9.2.2 16 ⟨4, by norm_num⟩ (by omega)
    omega
  refine ⟨hok, hcap8n, halloc8n, ?_, ?_, by omega, m9, heq9, hcap9, ?_, ?_, ?_⟩
  · rw [map_size_eq _ hInv8.magic_ok, hsize8n]
  · intro k hk
    exact map_get_of_model_some _ hInv8 k (f k) (hmem8 k hk)
  · rw [map_size_eq _ hInv9.magic_ok, hsize9, hsize8n]
  · exact map_get_of_model_some _ hInv9 k9 v9 hmk9
  · intro k hk
    have hkne : k ≠ k9 := fun he => hk9 (he ▸ hk)
    refine map_get_of_model_some _ hInv9 k (f k) ?_
    rw [hother9 k hkne]
    exact hmem8 k hk

theorem C8_witness :
    c8_keys.Nodup ∧ c8_keys.length = 8 ∧ ([105] : CStr) ∉ c8_keys ∧
    putAllOk (map_init dummyMap) c8_keys (fun k => some k) ∧
    c8_m8.capacity = 8 ∧ map_size c8_m8 = 8 ∧
    (∀ k ∈ c8_keys, map_get c8_m8 (some k) = some k) ∧
    ∃ m9, map_put c8_m8 (some [105]) (some [105]) = (.OK, m9) ∧
      m9.capacity = 16 ∧ map_size m9 = 9 ∧
      map_get m9 (some [105]) = some [105] ∧
      (∀ k ∈ c8_keys, map_get m9 (some k) = some k) := by
  have h := C8_amended dummyMap c8_keys (fun k => some k) (by decide) (by decide)
    [105] (by decide) (some [105])
  exact ⟨by decide, by decide, by decide, h.1, h.2.1, h.2.2.2.1, h.2.2.2.2.1,
    h.2.2.2.2.2.2⟩

/-- C9: once a properly initialized map has been destroyed, a second
map_destroy is a no-op, every subsequent put or remove with a non-null key
returns the not-initialized error with the state unchanged, map_get
returns absent for every key argument, and map_size returns 0. -/
theorem C9_destroy_idempotent (m : map_t) (hm : m.magic = MAGIC) :
    map_destroy (map_destroy m) = map_destroy m ∧
    (∀ k v, map_put (map_destroy m) (some k) v = (.NOT_INIT, map_destroy m)) ∧
    (∀ k, map_remove (map_destroy m) (some k) = (.NOT_INIT, map_destroy m)) ∧
    (∀ key, map_get (map_destroy m) key = none) ∧
    map_size (map_destroy m) = 0 := by
  have hd : (map_destroy m).magic = 0 := by
    show (if m.magic ≠ MAGIC then m
      else { m with entries := [], magic := 0 }).magic = 0
    rw [if_neg (by rw [hm]; exact fun h => h rfl)]
  have hdm : (map_destroy m).magic ≠ MAGIC := by
    rw [hd]
    decide
  refine ⟨?_, ?_, ?_, ?_, map_size_not_init _ hdm⟩
  · show (if (map_destroy m).magic ≠ MAGIC then map_destroy m
      else { map_destroy m with entries := [], magic := 0 }) = map_destroy m
    rw [if_pos hdm]
  · intro k v
    exact map_put_not_init _ hdm (some k) v (by simp)
  · intro k
    exact map_remove_not_init _ hdm (some k) (by simp)
  · intro key
    exact map_get_not_init _ hdm key

theorem C9_witness :
    (map_init dummyMap).magic = MAGIC ∧
    map_destroy (map_destroy (map_init dummyMap)) =
      map_destroy (map_init dummyMap) ∧
    map_put (map_destroy (map_init dummyMap)) (some [97]) (some [49]) =
      (.NOT_INIT, map_destroy (map_init dummyMap)) ∧
    map_remove (map_destroy (map_init dummyMap)) (some [97]) =
      (.NOT_INIT, map_destroy (map_init dummyMap)) ∧
    map_get (map_destroy (map_init dummyMap)) (some [97]) = none ∧
    map_size (map_destroy (map_init dummyMap)) = 0 := by
  have h := C9_destroy_idempotent (map_init dummyMap) (by decide)
  exact ⟨by decide, h.1, h.2.1 [97] (some [49]), h.2.2.1 [97],
    h.2.2.2.1 (some [97]), h.2.2.2.2⟩

/-- C10: map_get and map_size perform no store to the map structure or the
slot array in the C source, so as operations on the state they are the
identity: applying a get (with any key argument, null included) or a size
call leaves every component of the state exactly as it was. -/
theorem C10_get_size_read_only (m : map_t) (key : Option CStr) :
    applyOp m (MapOp.getOp key) = m ∧ applyOp m MapOp.sizeOp = m :=
  ⟨rfl, rfl⟩

end MapA1
